import Mathlib

/-!
# Verification of the lazy-di service module

A shallow embedding of `src/serviceModule.ts`: keys, factories, module
assembly with last-wins deduplication, the construction-time graph
validator (cycle detection by depth-first search and missing-dependency
detection), the asynchronous resolver modelled as a state-passing
interpreter, `getOrNull`, selector handles, and scope-filtered disposal.

The repository ships only `serviceModule.ts` under `src/`; the files it
imports (`serviceKey.ts`, `serviceFactory.ts`, `serviceScope.ts`,
`serviceSelector.ts`, `errors.ts`) are not present. Where behaviour lives
in those files (the singleton memoization inside the factory helpers, the
selector member lookup, the error classes), the definitions below are
modelled from the specification and are marked as such in their doc
comments. Everything else is a direct translation of `serviceModule.ts`.

JavaScript `Symbol` identities are modelled as `Nat`; promise-based
asynchronous resolution is modelled as sequential state passing (the spec
guarantees a single logical thread with no ordering guarantee between
siblings, so the left-to-right schedule is one admissible schedule); the
in-flight half of the singleton guarantee is modelled separately as an
explicit event state machine, following section 9 of the spec.
-/

namespace LazyDI

/-- A service key: a unique identity token (`sym`, standing in for the
JavaScript `Symbol`) plus a diagnostic label (`name`). Modelled from the
spec (serviceKey.ts is not under `src/`): equality is by token, never by
label. -/
structure SKey where
  sym : Nat
  name : String
deriving DecidableEq, Repr

/-- A dependency entry: either a plain key or a selector key carrying its
ordered member keys. Modelled from the spec (serviceKey.ts is not under
`src/`): `ServiceSelectorKey` is the variant of `ServiceKey` that carries
`values`, recognised by `instanceof` in the source. -/
inductive DepKey where
  | plain (key : SKey)
  | selector (members : List SKey)
deriving DecidableEq, Repr

/-- Runtime values produced by factories: strings, identity-bearing
objects (`obj id` models a JavaScript object allocation, distinct ids
meaning distinct references), and selector handles (a `ServiceSelector`
bound to the resolving module and carrying the selector member keys). -/
inductive Value where
  | str (s : String)
  | obj (id : Nat)
  | selectorHandle (members : List SKey)
deriving DecidableEq, Repr

/-- Factory lifecycle kind. Modelled from the spec (serviceFactory.ts is
not under `src/`): `ServiceFactory.singleton` memoizes one instance per
module, `ServiceFactory.oneShot` constructs afresh on every call. -/
inductive FKind where
  | singleton
  | transient
deriving DecidableEq, Repr

/-- Errors of the module, mirroring `errors.ts` (not under `src/`, but its
two classes are raised and matched by name in `serviceModule.ts`):
`notFound` is `ServiceFactoryNotFoundError`, `moduleInit` is
`ServiceModuleInitError`, and `userError` is any error escaping a factory
constructor. `outOfFuel` is an artifact of the fuel-bounded embedding of
the unbounded recursions and corresponds to no source error. -/
inductive Err where
  | notFound (msg : String)
  | moduleInit (msg : String)
  | userError (msg : String)
  | outOfFuel
deriving DecidableEq, Repr

/-- A service factory: the provided key, the ordered dependency list, the
lifecycle kind, an optional scope tag, the raw constructor (receiving the
resolved dependency values positionally plus a fresh allocation id from
the interpreter), and an optional disposer hook (its identity recorded so
disposal can be observed). The kind and the hooks follow the factory
helper configuration enumerated in the spec, serviceFactory.ts being
absent from `src/`. -/
structure Factory where
  provides : SKey
  dependsOn : List DepKey
  kind : FKind
  scope : Option Nat := none
  ctor : List Value → Nat → Except String Value
  disposeHook : Option Nat := none

/-- A validated module: the deduplicated factory list. -/
structure ServiceModule where
  factories : List Factory

/-- An entry of `ServiceModule.from`: an existing module or a standalone
factory. -/
inductive Entry where
  | mod (m : ServiceModule)
  | fac (f : Factory)

/-! ## Key lookup -/

/-- Last-wins lookup by provided-key identity: the value the JavaScript
`Map` built with `byKey.set(f.provides.symbol, f)` holds for `sym` after
inserting every factory in order. -/
def lookupFact (fs : List Factory) (s : Nat) : Option Factory :=
  fs.foldl (fun acc f => if f.provides.sym = s then some f else acc) none

/-- First-match lookup, `this.factories.find((factory) => isSuitable(key,
factory))` from `ServiceModule.get`. -/
def findFact (fs : List Factory) (s : Nat) : Option Factory :=
  fs.find? (fun f => f.provides.sym == s)

/-- `isRegistered` from the source: some factory provides the key,
compared by identity. -/
def isRegistered (key : SKey) (fs : List Factory) : Bool :=
  fs.any (fun f => f.provides.sym == key.sym)

/-- Expansion of one dependency entry to the keys the validator checks: a
selector fans out to its member keys, a plain key stands alone. -/
def expandDep : DepKey → List SKey
  | .plain k => [k]
  | .selector ms => ms

/-- The validator view of a dependency list: every entry expanded. -/
def expandDeps (ds : List DepKey) : List SKey :=
  ds.flatMap expandDep

/-- The symbols a factory depends on after selector expansion, in
declaration order. -/
def memberSyms (f : Factory) : List Nat :=
  (expandDeps f.dependsOn).map (fun k => k.sym)

/-! ## Module assembly -/

/-- One `Map.set`: if a factory with the same provided symbol is already
present, replace it in place (the JavaScript `Map` keeps the first
insertion position and the last value); otherwise append. -/
def upsert : List Factory → Factory → List Factory
  | [], f => [f]
  | g :: rest, f =>
    if g.provides.sym = f.provides.sym then f :: rest else g :: upsert rest f

/-- Last-wins deduplication by provided-key identity: insert every
factory of the flattened sequence into the map in order and read the
values back out, exactly `Array.from(byKey.values())`. -/
def dedupLastWins (fs : List Factory) : List Factory :=
  fs.foldl upsert []

/-- Flattening of `from` entries: a module entry contributes its factory
sequence, a standalone factory contributes itself, relative order
preserved. -/
def flattenEntries (entries : List Entry) : List Factory :=
  entries.flatMap (fun e => match e with | .mod m => m.factories | .fac f => [f])

/-! ## Cycle detection -/

/-- The cycle error message: the traversal path joined by arrows. -/
def cycleMsg (names : List String) : String :=
  "Circular dependency detected: " ++ String.intercalate " -> " names

/-- The loop body of `walk` over the expanded dependency symbols: walk
each child in order, threading the visited set; the first error aborts.
`w` is the walk continuation at one less fuel. -/
def walkKids (w : Nat → List Nat → Except Err (List Nat)) :
    List Nat → List Nat → Except Err (List Nat)
  | [], visited => .ok visited
  | c :: cs, visited =>
    match w c visited with
    | .error e => .error e
    | .ok visited1 => walkKids w cs visited1

/-- The recursive `walk` of `checkCircularDependencies`, keyed by the
provided symbol: unregistered symbols are skipped (the source skips
dependencies with no factory before recursing); a symbol already on the
current recursion stack raises the cycle error with the accumulated path
plus the repeated name; an already fully visited symbol returns; a fresh
symbol is added to the visited set and the stack and its expanded
dependency symbols are walked. The fuel argument bounds the recursion
depth of the embedding; with the fuel `checkCircular` supplies it never
runs out (`walkSym_classify` below). The source passes the factory object
where this passes its symbol and consults the map; on the deduplicated
lists the private constructor receives, the two agree. -/
def walkSym (fs : List Factory) : Nat → Nat → List Nat → List Nat → List String →
    Except Err (List Nat)
  | 0, _, _, _, _ => .error .outOfFuel
  | fuel + 1, s, visited, stack, path =>
    match lookupFact fs s with
    | none => .ok visited
    | some f =>
      if s ∈ stack then
        .error (.moduleInit (cycleMsg (path ++ [f.provides.name])))
      else if s ∈ visited then
        .ok visited
      else
        walkKids (fun c vis => walkSym fs fuel c vis (s :: stack) (path ++ [f.provides.name]))
          (memberSyms f) (s :: visited)

/-- The top-level loop of `checkCircularDependencies`: walk every factory
of the module in order with an empty stack and path, threading the
visited set. -/
def checkCircLoop (fs : List Factory) : List Factory → List Nat → Except Err (List Nat)
  | [], visited => .ok visited
  | f :: rest, visited =>
    match walkSym fs (fs.length + 1) f.provides.sym visited [] [] with
    | .error e => .error e
    | .ok visited1 => checkCircLoop fs rest visited1

/-- `checkCircularDependencies`. -/
def checkCircular (fs : List Factory) : Except Err Unit :=
  match checkCircLoop fs fs [] with
  | .error e => .error e
  | .ok _ => .ok ()

/-! ## Missing-dependency detection -/

/-- The missing dependencies collected for one factory: every expanded
dependency key no factory of the module provides, in declaration order. -/
def missingOf (f : Factory) (fs : List Factory) : List SKey :=
  (expandDeps f.dependsOn).filter (fun k => !(isRegistered k fs))

/-- The missing-dependency error message: the template
`<name> will fail because it depends on:\n <list>` where the list joins
` -> <keyName>` items with newlines. Note the template contributes one
space after the newline and each item starts with its own space. -/
def missingMsg (f : Factory) (missing : List SKey) : String :=
  f.provides.name ++ " will fail because it depends on:\n " ++
    String.intercalate "\n" (missing.map (fun k => " -> " ++ k.name))

/-- `checkMissingDependencies` for one factory. -/
def checkMissingOne (f : Factory) (fs : List Factory) : Except Err Unit :=
  if missingOf f fs = [] then .ok ()
  else .error (.moduleInit (missingMsg f (missingOf f fs)))

/-- The `forEach` over factories in the private constructor: the first
factory with missing dependencies aborts construction. -/
def checkMissingAll (fs : List Factory) : List Factory → Except Err Unit
  | [] => .ok ()
  | f :: rest =>
    match checkMissingOne f fs with
    | .error e => .error e
    | .ok _ => checkMissingAll fs rest

/-- `ServiceModule.from`: flatten, deduplicate last-wins, then run the
validator (cycles first, then missing dependencies, exactly the order of
the private constructor); any violation aborts with its error and no
module is produced. -/
def fromEntries (entries : List Entry) : Except Err ServiceModule :=
  match checkCircular (dedupLastWins (flattenEntries entries)) with
  | .error e => .error e
  | .ok _ =>
    match checkMissingAll (dedupLastWins (flattenEntries entries))
        (dedupLastWins (flattenEntries entries)) with
    | .error e => .error e
    | .ok _ => .ok ⟨dedupLastWins (flattenEntries entries)⟩

/-! ## The resolver -/

/-- Interpreter state: the fresh-allocation counter, the trace of
constructor invocations (the provided symbol of each factory whose raw
constructor ran, in order), and the singleton cache (an association from
provided symbol to the memoized instance). -/
structure RState where
  nextId : Nat := 0
  inits : List Nat := []
  cache : List (Nat × Value) := []
deriving Repr

/-- Cache lookup by factory identity. -/
def lookupCache (c : List (Nat × Value)) (s : Nat) : Option Value :=
  (c.find? (fun p => p.1 == s)).map (fun p => p.2)

/-- Run a factory raw constructor: allocate a fresh id, record the
invocation in the trace, and either produce the value or surface the
constructor error unchanged (as `userError`). -/
def runCtor (f : Factory) (vals : List Value) (s : RState) :
    Except Err Value × RState :=
  let s1 : RState :=
    { s with nextId := s.nextId + 1, inits := s.inits ++ [f.provides.sym] }
  match f.ctor vals s.nextId with
  | .ok v => (.ok v, s1)
  | .error msg => (.error (.userError msg), s1)

/-- Invoke a factory with its resolved dependency values. Modelled from
the spec (serviceFactory.ts is not under `src/`): a transient factory
runs its raw constructor on every call with no caching; a singleton
factory consults the per-module cache keyed by factory identity, returns
the memoized outcome on a hit, and on a miss runs the raw constructor
once and stores the outcome. A failed singleton construction is not
cached (the spec leaves the failure path open; this choice only makes
failure repeatable and is exercised by no claim). -/
def invokeFactory (f : Factory) (vals : List Value) (s : RState) :
    Except Err Value × RState :=
  match f.kind with
  | .transient => runCtor f vals s
  | .singleton =>
    match lookupCache s.cache f.provides.sym with
    | some v => (.ok v, s)
    | none =>
      match runCtor f vals s with
      | (.ok v, s1) => (.ok v, { s1 with cache := (f.provides.sym, v) :: s1.cache })
      | (.error e, s1) => (.error e, s1)

/-- Resolution of one dependency entry, given the recursive resolver `g`:
a selector key constructs a selector handle bound to the module and that
key with no eager resolution of its members; a plain key recurses. -/
def resolveDepA (g : SKey → RState → Except Err Value × RState) :
    DepKey → RState → Except Err Value × RState
  | .selector ms, s => (.ok (.selectorHandle ms), s)
  | .plain k, s => g k s

/-- Resolution of a dependency list in declaration order, collecting the
values positionally; the first failure aborts with that failure. This is
the sequential schedule of the `Promise.all` fan-out (the spec guarantees
no ordering between siblings). -/
def resolveDepsA (g : SKey → RState → Except Err Value × RState) :
    List DepKey → RState → Except Err (List Value) × RState
  | [], s => (.ok [], s)
  | d :: ds, s =>
    match resolveDepA g d s with
    | (.error e, s1) => (.error e, s1)
    | (.ok v, s1) =>
      match resolveDepsA g ds s1 with
      | (.error e, s2) => (.error e, s2)
      | (.ok vs, s2) => (.ok (v :: vs), s2)

/-- `ServiceModule.get`, fuel-bounded: locate the first suitable factory
(failing with the not-found error naming the key), resolve the declared
dependencies in order, then invoke the factory with the resolved values.
The fuel bounds the dependency recursion of the embedding; `outOfFuel`
corresponds to no source behaviour and is distinct from every source
error. -/
def getFuel (m : List Factory) : Nat → SKey → RState → Except Err Value × RState
  | 0, _, s => (.error .outOfFuel, s)
  | fuel + 1, key, s =>
    match findFact m key.sym with
    | none =>
      (.error (.notFound ("Could not find a suitable factory for " ++ key.name)), s)
    | some f =>
      match resolveDepsA (getFuel m fuel) f.dependsOn s with
      | (.error e, s1) => (.error e, s1)
      | (.ok vals, s1) => invokeFactory f vals s1

/-- `ServiceModule.get` with the canonical fuel: in a validated module the
dependency chains are acyclic, so a depth beyond the factory count never
occurs. -/
def moduleGet (m : ServiceModule) (key : SKey) : RState → Except Err Value × RState :=
  getFuel m.factories (m.factories.length + 1) key

/-- `ServiceModule.getOrNull`: run `get`; the not-found failure and only
that failure is converted to a resolved `none`, every other failure
propagates unchanged. -/
def getOrNullFuel (m : List Factory) (fuel : Nat) (key : SKey) (s : RState) :
    Except Err (Option Value) × RState :=
  match getFuel m fuel key s with
  | (.error (.notFound _), s1) => (.ok none, s1)
  | (.error e, s1) => (.error e, s1)
  | (.ok v, s1) => (.ok (some v), s1)

/-- `getOrNull` with the canonical fuel. -/
def moduleGetOrNull (m : ServiceModule) (key : SKey) :
    RState → Except Err (Option Value) × RState :=
  getOrNullFuel m.factories (m.factories.length + 1) key

/-- Run `get` for the same key `n` times sequentially, collecting the
results; the first failure aborts. -/
def getMany (m : List Factory) (fuel : Nat) (key : SKey) :
    Nat → RState → Except Err (List Value) × RState
  | 0, s => (.ok [], s)
  | n + 1, s =>
    match getFuel m fuel key s with
    | (.error e, s1) => (.error e, s1)
    | (.ok v, s1) =>
      match getMany m fuel key n s1 with
      | (.error e, s2) => (.error e, s2)
      | (.ok vs, s2) => (.ok (v :: vs), s2)

/-- `ServiceSelector.get`. Modelled from the spec (serviceSelector.ts is
not under `src/`): the selector is constructed with the (module, selector
key) pair — here the handle value carrying the member keys — and its
`get(memberKey)` resolves exactly as `module.get(memberKey)` would, with
the same scoping and caching rules. -/
def selectorGet (m : ServiceModule) (_handle : Value) (memberKey : SKey) :
    RState → Except Err Value × RState :=
  moduleGet m memberKey

/-! ## Disposal -/

/-- `ServiceModule.dispose`: with a scope, select the factories whose
declared scope matches by identity; with none, select all. Invoke the
disposer hook of each selected factory that has one (`factory.dispose?.()`
skips absent hooks without error — the embedding is a total function).
The result lists the provided symbols of the factories whose hook ran, in
order. -/
def dispose (m : ServiceModule) (scope : Option Nat) : List Nat :=
  let selected : List Factory := match scope with
    | some _ => m.factories.filter (fun f => f.scope == scope)
    | none => m.factories
  (selected.filter (fun f => f.disposeHook.isSome)).map (fun f => f.provides.sym)

/-! ## The in-flight singleton state machine

Modelled from the spec: the source memoizes the pending promise of a
singleton constructor inside `ServiceFactory.singleton` (serviceFactory.ts
is not under `src/`), caching the pending outcome the instant the first
caller begins resolution, so callers arriving before completion observe
and await the existing in-flight operation. Following section 9 of the
spec, the cell holding the outcome is an explicit state machine over
caller-arrival and construction-completion events. -/

/-- The singleton cell: untouched, construction in flight, or outcome
ready. -/
inductive CellState where
  | uninit
  | inFlight
  | ready
deriving DecidableEq, Repr

/-- The observable state of one singleton factory under concurrent
requests: the cell, the number of raw constructor invocations started,
and the number of callers attached to the single shared outcome. -/
structure SingletonSim where
  cell : CellState
  ctorRuns : Nat
  waiters : Nat
deriving DecidableEq, Repr

/-- Events: a `get` call arrives for the singleton key, or the in-flight
construction completes. -/
inductive SimEvent where
  | arrive
  | complete
deriving DecidableEq, Repr

/-- One step: an arrival on an untouched cell starts construction (the
only transition that invokes the constructor) and attaches the caller;
an arrival in any other state attaches the caller to the existing
outcome; completion moves an in-flight cell to ready. -/
def simStep (st : SingletonSim) : SimEvent → SingletonSim
  | .arrive =>
    match st.cell with
    | .uninit => { cell := .inFlight, ctorRuns := st.ctorRuns + 1, waiters := st.waiters + 1 }
    | _ => { st with waiters := st.waiters + 1 }
  | .complete =>
    match st.cell with
    | .inFlight => { st with cell := .ready }
    | _ => st

/-- Run an event trace from the untouched cell. -/
def simRun (evs : List SimEvent) : SingletonSim :=
  evs.foldl simStep ⟨.uninit, 0, 0⟩

/-- The number of arrivals in a trace. -/
def arrivals (evs : List SimEvent) : Nat :=
  evs.countP (fun e => e == .arrive)

/-! ## Substring search

A small executable substring check, used to state the message-containment
parts of the spec claims. -/

/-- Does the second list start with the first? -/
def startsList : List Char → List Char → Bool
  | [], _ => true
  | _ :: _, [] => false
  | p :: ps, c :: cs => p == c && startsList ps cs

/-- Does the second list contain the first as a contiguous run? -/
def subList (pat : List Char) : List Char → Bool
  | [] => startsList pat []
  | c :: cs => startsList pat (c :: cs) || subList pat cs

/-- Does `hay` contain `pat` as a contiguous substring? -/
def strHasSub (hay pat : String) : Bool :=
  subList pat.data hay.data

/-! ## Basic facts about lookup and registration -/

/-- The provided symbols of a factory list, in order. -/
def symsOf (fs : List Factory) : List Nat :=
  fs.map (fun f => f.provides.sym)

theorem lookupFact_foldl (s : Nat) (xs : List Factory) :
    ∀ init : Option Factory,
      xs.foldl (fun acc f => if f.provides.sym = s then some f else acc) init
        = (lookupFact xs s).or init := by
  induction xs with
  | nil => intro init; rfl
  | cons x xs ih =>
    intro init
    simp only [List.foldl_cons]
    rw [ih]
    have h2 : lookupFact (x :: xs) s
        = (lookupFact xs s).or (if x.provides.sym = s then some x else none) := by
      show List.foldl _ (if x.provides.sym = s then some x else none) xs = _
      rw [ih]
    rw [h2]
    by_cases hx : x.provides.sym = s <;> cases h : lookupFact xs s <;>
      simp [hx, Option.or]

theorem lookupFact_cons (x : Factory) (xs : List Factory) (s : Nat) :
    lookupFact (x :: xs) s
      = (lookupFact xs s).or (if x.provides.sym = s then some x else none) := by
  show List.foldl _ _ (x :: xs) = _
  simp only [List.foldl_cons]
  exact lookupFact_foldl s xs _

theorem lookupFact_mem {xs : List Factory} {s : Nat} {g : Factory}
    (h : lookupFact xs s = some g) : g ∈ xs ∧ g.provides.sym = s := by
  induction xs with
  | nil => exact absurd h (by simp [lookupFact])
  | cons x xs ih =>
    rw [lookupFact_cons] at h
    cases hx : lookupFact xs s with
    | some g' =>
      rw [hx] at h
      cases h
      have := ih hx
      exact ⟨List.mem_cons_of_mem _ this.1, this.2⟩
    | none =>
      rw [hx, Option.none_or] at h
      by_cases hs : x.provides.sym = s
      · rw [if_pos hs] at h; cases h; exact ⟨List.mem_cons_self _ _, hs⟩
      · rw [if_neg hs] at h; cases h

theorem lookupFact_isSome_iff {xs : List Factory} {s : Nat} :
    (lookupFact xs s).isSome ↔ ∃ f ∈ xs, f.provides.sym = s := by
  constructor
  · intro h
    cases hl : lookupFact xs s with
    | none => rw [hl] at h; cases h
    | some g => exact ⟨g, (lookupFact_mem hl).1, (lookupFact_mem hl).2⟩
  · rintro ⟨f, hmem, hsym⟩
    induction xs with
    | nil => cases hmem
    | cons x xs ih =>
      rw [lookupFact_cons]
      cases hl : lookupFact xs s with
      | some g => simp [Option.or]
      | none =>
        rcases List.mem_cons.1 hmem with h | h
        · subst h; simp [hsym]
        · have := ih h
          rw [hl] at this; cases this

theorem findFact_mem {m : List Factory} {s : Nat} {f : Factory}
    (h : findFact m s = some f) : f ∈ m ∧ f.provides.sym = s := by
  refine ⟨List.mem_of_find?_eq_some h, ?_⟩
  have := List.find?_some h
  simpa using this

theorem findFact_isSome_iff {m : List Factory} {s : Nat} :
    (findFact m s).isSome ↔ ∃ f ∈ m, f.provides.sym = s := by
  unfold findFact
  rw [List.find?_isSome]
  simp

theorem findFact_eq_none_iff {m : List Factory} {s : Nat} :
    findFact m s = none ↔ ∀ f ∈ m, f.provides.sym ≠ s := by
  unfold findFact
  rw [List.find?_eq_none]
  simp

theorem isRegistered_iff {k : SKey} {fs : List Factory} :
    isRegistered k fs = true ↔ ∃ f ∈ fs, f.provides.sym = k.sym := by
  unfold isRegistered
  rw [List.any_eq_true]
  simp

theorem isRegistered_iff_lookup {k : SKey} {fs : List Factory} :
    isRegistered k fs = true ↔ (lookupFact fs k.sym).isSome := by
  rw [isRegistered_iff, lookupFact_isSome_iff]

theorem isRegistered_iff_find {k : SKey} {fs : List Factory} :
    isRegistered k fs = true ↔ (findFact fs k.sym).isSome := by
  rw [isRegistered_iff, findFact_isSome_iff]

theorem findFact_self_of_nodup {fs : List Factory} {g : Factory}
    (hn : (symsOf fs).Nodup) (hg : g ∈ fs) :
    findFact fs g.provides.sym = some g := by
  induction fs with
  | nil => cases hg
  | cons x xs ih =>
    have hn' : x.provides.sym ∉ symsOf xs ∧ (symsOf xs).Nodup := by
      simpa [symsOf] using hn
    rcases List.mem_cons.1 hg with h | h
    · subst h
      simp [findFact]
    · have hne : x.provides.sym ≠ g.provides.sym := by
        intro he
        apply hn'.1
        rw [he]
        exact List.mem_map_of_mem (fun f => f.provides.sym) h
      show List.find? _ (x :: xs) = _
      rw [List.find?_cons_of_neg _ (by simpa using hne)]
      exact ih hn'.2 h

theorem findFact_eq_lookupFact {fs : List Factory} (hn : (symsOf fs).Nodup)
    (s : Nat) : findFact fs s = lookupFact fs s := by
  induction fs with
  | nil => rfl
  | cons x xs ih =>
    have hn' : x.provides.sym ∉ symsOf xs ∧ (symsOf xs).Nodup := by
      simpa [symsOf] using hn
    rw [lookupFact_cons]
    by_cases hs : x.provides.sym = s
    · have hnone : lookupFact xs s = none := by
        cases hl : lookupFact xs s with
        | none => rfl
        | some g =>
          exfalso
          apply hn'.1
          rw [hs]
          have hmem := lookupFact_mem hl
          rw [← hmem.2]
          exact List.mem_map_of_mem (fun f => f.provides.sym) hmem.1
      rw [hnone, Option.none_or, if_pos hs]
      show List.find? _ (x :: xs) = _
      rw [List.find?_cons_of_pos _ (by simpa using hs)]
    · rw [if_neg hs, Option.or_none]
      show List.find? _ (x :: xs) = _
      rw [List.find?_cons_of_neg _ (by simpa using hs)]
      exact ih hn'.2

/-! ## Facts about last-wins deduplication -/

theorem findFact_upsert (l : List Factory) (f : Factory) (s : Nat) :
    findFact (upsert l f) s = if f.provides.sym = s then some f else findFact l s := by
  induction l with
  | nil =>
    by_cases hs : f.provides.sym = s
    · rw [if_pos hs]
      show List.find? _ [f] = some f
      rw [List.find?_cons_of_pos _ (by simpa using hs)]
    · rw [if_neg hs]
      show List.find? _ [f] = List.find? _ ([] : List Factory)
      rw [List.find?_cons_of_neg _ (by simpa using hs)]
  | cons g rest ih =>
    by_cases hg : g.provides.sym = f.provides.sym
    · rw [upsert, if_pos hg]
      by_cases hs : f.provides.sym = s
      · rw [if_pos hs]
        show List.find? _ (f :: rest) = some f
        rw [List.find?_cons_of_pos _ (by simpa using hs)]
      · rw [if_neg hs]
        have hgs : g.provides.sym ≠ s := fun he => hs (hg.symm.trans he)
        show List.find? _ (f :: rest) = List.find? _ (g :: rest)
        rw [List.find?_cons_of_neg _ (by simpa using hs),
          List.find?_cons_of_neg _ (by simpa using hgs)]
    · rw [upsert, if_neg hg]
      by_cases hgs : g.provides.sym = s
      · have hs : f.provides.sym ≠ s := fun he => hg (hgs.trans he.symm)
        rw [if_neg hs]
        show List.find? _ (g :: upsert rest f) = List.find? _ (g :: rest)
        rw [List.find?_cons_of_pos _ (by simpa using hgs),
          List.find?_cons_of_pos _ (by simpa using hgs)]
      · show List.find? _ (g :: upsert rest f) = _
        rw [List.find?_cons_of_neg _ (by simpa using hgs)]
        rw [show List.find? (fun f => f.provides.sym == s) (upsert rest f)
              = findFact (upsert rest f) s from rfl, ih]
        by_cases hs : f.provides.sym = s
        · rw [if_pos hs, if_pos hs]
        · rw [if_neg hs, if_neg hs]
          show findFact rest s = List.find? _ (g :: rest)
          rw [List.find?_cons_of_neg _ (by simpa using hgs)]
          rfl

theorem findFact_foldl_upsert (xs : List Factory) :
    ∀ (acc : List Factory) (s : Nat),
      findFact (xs.foldl upsert acc) s = (lookupFact xs s).or (findFact acc s) := by
  induction xs with
  | nil => intro acc s; simp [lookupFact, Option.none_or]
  | cons x xs ih =>
    intro acc s
    simp only [List.foldl_cons]
    rw [ih, lookupFact_cons, findFact_upsert]
    cases h : lookupFact xs s with
    | some g => simp [Option.or]
    | none =>
      by_cases hs : x.provides.sym = s <;> simp [hs, Option.or]

theorem findFact_dedup (xs : List Factory) (s : Nat) :
    findFact (dedupLastWins xs) s = lookupFact xs s := by
  have h := findFact_foldl_upsert xs [] s
  simpa [dedupLastWins, findFact, Option.or_none] using h

theorem symsOf_cons (x : Factory) (xs : List Factory) :
    symsOf (x :: xs) = x.provides.sym :: symsOf xs := rfl

theorem symsOf_upsert (l : List Factory) (f : Factory) :
    symsOf (upsert l f)
      = if f.provides.sym ∈ symsOf l then symsOf l else symsOf l ++ [f.provides.sym] := by
  induction l with
  | nil => simp [upsert, symsOf]
  | cons g rest ih =>
    by_cases hg : g.provides.sym = f.provides.sym
    · rw [upsert, if_pos hg, symsOf_cons, symsOf_cons,
        if_pos (show f.provides.sym ∈ g.provides.sym :: symsOf rest by
          rw [hg]; exact List.mem_cons_self _ _)]
      rw [hg]
    · have hne : f.provides.sym ≠ g.provides.sym := fun he => hg he.symm
      rw [upsert, if_neg hg, symsOf_cons, ih, symsOf_cons]
      by_cases hm : f.provides.sym ∈ symsOf rest
      · rw [if_pos hm, if_pos (List.mem_cons_of_mem _ hm)]
      · rw [if_neg hm,
          if_neg (show f.provides.sym ∉ g.provides.sym :: symsOf rest from by
            intro hmem
            rcases List.mem_cons.1 hmem with h | h
            · exact hne h
            · exact hm h)]
        rfl

theorem nodup_symsOf_upsert {l : List Factory} (f : Factory)
    (h : (symsOf l).Nodup) : (symsOf (upsert l f)).Nodup := by
  rw [symsOf_upsert]
  by_cases hm : f.provides.sym ∈ symsOf l
  · rwa [if_pos hm]
  · rw [if_neg hm, List.nodup_append]
    refine ⟨h, List.nodup_singleton _, ?_⟩
    intro a ha hb
    rw [List.mem_singleton] at hb
    exact hm (hb ▸ ha)

theorem nodup_symsOf_foldl_upsert (xs : List Factory) :
    ∀ acc : List Factory, (symsOf acc).Nodup → (symsOf (xs.foldl upsert acc)).Nodup := by
  induction xs with
  | nil => intro acc h; exact h
  | cons x xs ih =>
    intro acc h
    simp only [List.foldl_cons]
    exact ih _ (nodup_symsOf_upsert x h)

theorem nodup_symsOf_dedup (xs : List Factory) :
    (symsOf (dedupLastWins xs)).Nodup :=
  nodup_symsOf_foldl_upsert xs [] (by simp [symsOf])

theorem mem_upsert {g : Factory} {l : List Factory} {f : Factory}
    (h : g ∈ upsert l f) : g ∈ l ∨ g = f := by
  induction l with
  | nil => simpa [upsert] using h
  | cons x rest ih =>
    by_cases hx : x.provides.sym = f.provides.sym
    · rw [upsert, if_pos hx] at h
      rcases List.mem_cons.1 h with h | h
      · exact Or.inr h
      · exact Or.inl (List.mem_cons_of_mem _ h)
    · rw [upsert, if_neg hx] at h
      rcases List.mem_cons.1 h with h | h
      · exact Or.inl (h ▸ List.mem_cons_self _ _)
      · rcases ih h with h | h
        · exact Or.inl (List.mem_cons_of_mem _ h)
        · exact Or.inr h

theorem mem_foldl_upsert {g : Factory} (xs : List Factory) :
    ∀ acc : List Factory, g ∈ xs.foldl upsert acc → g ∈ acc ∨ g ∈ xs := by
  induction xs with
  | nil => intro acc h; exact Or.inl h
  | cons x xs ih =>
    intro acc h
    simp only [List.foldl_cons] at h
    rcases ih _ h with h | h
    · rcases mem_upsert h with h | h
      · exact Or.inl h
      · exact Or.inr (h ▸ List.mem_cons_self _ _)
    · exact Or.inr (List.mem_cons_of_mem _ h)

theorem mem_dedupLastWins {g : Factory} {xs : List Factory}
    (h : g ∈ dedupLastWins xs) : g ∈ xs := by
  rcases mem_foldl_upsert xs [] h with h | h
  · cases h
  · exact h

theorem lookupFact_of_mem_dedup {g : Factory} {xs : List Factory}
    (h : g ∈ dedupLastWins xs) : lookupFact xs g.provides.sym = some g := by
  rw [← findFact_dedup]
  exact findFact_self_of_nodup (nodup_symsOf_dedup xs) h

/-- Accumulate a symbol, keeping the first occurrence only. -/
def addUniq (a : List Nat) (s : Nat) : List Nat :=
  if s ∈ a then a else a ++ [s]

theorem symsOf_upsert_addUniq (acc : List Factory) (x : Factory) :
    symsOf (upsert acc x) = addUniq (symsOf acc) x.provides.sym := by
  rw [symsOf_upsert]
  rfl

theorem symsOf_foldl_upsert (xs : List Factory) :
    ∀ acc : List Factory,
      symsOf (xs.foldl upsert acc) = (symsOf xs).foldl addUniq (symsOf acc) := by
  induction xs with
  | nil => intro acc; rfl
  | cons x xs ih =>
    intro acc
    rw [List.foldl_cons, ih, symsOf_cons, List.foldl_cons, symsOf_upsert_addUniq]

theorem mem_foldl_addUniq (l : List Nat) :
    ∀ (a : List Nat) (x : Nat), x ∈ l.foldl addUniq a ↔ x ∈ a ∨ x ∈ l := by
  induction l with
  | nil => intro a x; simp
  | cons y l ih =>
    intro a x
    simp only [List.foldl_cons]
    rw [ih]
    unfold addUniq
    by_cases hy : y ∈ a
    · rw [if_pos hy]
      constructor
      · rintro (h | h)
        · exact Or.inl h
        · exact Or.inr (List.mem_cons_of_mem _ h)
      · rintro (h | h)
        · exact Or.inl h
        · rcases List.mem_cons.1 h with h | h
          · exact Or.inl (h ▸ hy)
          · exact Or.inr h
    · rw [if_neg hy]
      simp only [List.mem_append, List.mem_singleton, List.mem_cons]
      tauto

theorem nodup_foldl_addUniq (l : List Nat) :
    ∀ a : List Nat, a.Nodup → (l.foldl addUniq a).Nodup := by
  induction l with
  | nil => intro a h; exact h
  | cons y l ih =>
    intro a h
    simp only [List.foldl_cons]
    refine ih _ ?_
    unfold addUniq
    by_cases hy : y ∈ a
    · rwa [if_pos hy]
    · rw [if_neg hy, List.nodup_append]
      refine ⟨h, List.nodup_singleton _, ?_⟩
      intro a ha hb
      rw [List.mem_singleton] at hb
      exact hy (hb ▸ ha)

theorem length_dedupLastWins (xs : List Factory) :
    (dedupLastWins xs).length = (symsOf xs).dedup.length := by
  have hmap : (dedupLastWins xs).length = (symsOf (dedupLastWins xs)).length := by
    simp [symsOf]
  rw [hmap]
  have hfold : symsOf (dedupLastWins xs) = (symsOf xs).foldl addUniq [] := by
    have := symsOf_foldl_upsert xs []
    simpa [dedupLastWins, symsOf] using this
  rw [hfold]
  refine List.Perm.length_eq ((List.perm_ext_iff_of_nodup ?_ ?_).2 ?_)
  · exact nodup_foldl_addUniq _ [] (List.nodup_nil)
  · exact List.nodup_dedup _
  · intro a
    rw [mem_foldl_addUniq, List.mem_dedup]
    simp

/-! ## Facts about the missing-dependency check -/

theorem missingOf_eq_nil_iff {f : Factory} {fs : List Factory} :
    missingOf f fs = [] ↔ ∀ k ∈ expandDeps f.dependsOn, isRegistered k fs = true := by
  unfold missingOf
  rw [List.filter_eq_nil_iff]
  simp

theorem checkMissingAll_ok_iff {fs : List Factory} :
    ∀ l : List Factory,
      checkMissingAll fs l = .ok () ↔ ∀ f ∈ l, missingOf f fs = [] := by
  intro l
  induction l with
  | nil => simp [checkMissingAll]
  | cons f rest ih =>
    unfold checkMissingAll checkMissingOne
    by_cases hf : missingOf f fs = []
    · rw [if_pos hf]
      simp only [List.mem_cons]
      rw [ih]
      constructor
      · intro h g hg
        rcases hg with hg | hg
        · exact hg ▸ hf
        · exact h g hg
      · intro h g hg
        exact h g (Or.inr hg)
    · rw [if_neg hf]
      simp only [List.mem_cons]
      constructor
      · intro h; cases h
      · intro h
        exact absurd (h f (Or.inl rfl)) hf

theorem checkMissingAll_first_err {fs : List Factory} :
    ∀ l : List Factory, (∃ f ∈ l, missingOf f fs ≠ []) →
      ∃ l₁ f l₂, l = l₁ ++ f :: l₂ ∧ (∀ g ∈ l₁, missingOf g fs = []) ∧
        missingOf f fs ≠ [] ∧
        checkMissingAll fs l = .error (.moduleInit (missingMsg f (missingOf f fs))) := by
  intro l
  induction l with
  | nil => rintro ⟨f, hf, _⟩; cases hf
  | cons g rest ih =>
    rintro ⟨f, hf, hmiss⟩
    by_cases hg : missingOf g fs = []
    · have hf' : f ∈ rest := by
        rcases List.mem_cons.1 hf with h | h
        · exact absurd (h ▸ hg) hmiss
        · exact h
      rcases ih ⟨f, hf', hmiss⟩ with ⟨l₁, f', l₂, heq, hpass, hm, herr⟩
      refine ⟨g :: l₁, f', l₂, by rw [heq]; rfl, ?_, hm, ?_⟩
      · intro x hx
        rcases List.mem_cons.1 hx with h | h
        · exact h ▸ hg
        · exact hpass x h
      · unfold checkMissingAll checkMissingOne
        rw [if_pos hg]
        exact herr
    · refine ⟨[], g, rest, rfl, (by intro x hx; cases hx), hg, ?_⟩
      unfold checkMissingAll checkMissingOne
      rw [if_neg hg]

/-! ## The dependency graph -/

/-- The edge relation the cycle detector traverses: `a` depends on `b`
when the factory providing `a` lists `b` among its expanded dependency
symbols and some factory provides `b` (the source skips dependency keys
with no registered factory before recursing). -/
def edge (fs : List Factory) (a b : Nat) : Prop :=
  ∃ f, lookupFact fs a = some f ∧ b ∈ memberSyms f ∧ (lookupFact fs b).isSome

/-- Nonempty dependency paths. -/
inductive GPath (fs : List Factory) : Nat → Nat → Prop where
  | single {a b : Nat} : edge fs a b → GPath fs a b
  | cons {a b c : Nat} : edge fs a b → GPath fs b c → GPath fs a c

theorem GPath.snoc {fs : List Factory} {a b c : Nat}
    (p : GPath fs a b) (e : edge fs b c) : GPath fs a c := by
  induction p generalizing c with
  | single e' => exact .cons e' (.single e)
  | cons e' _ ih => exact .cons e' (ih e)

theorem GPath.src_isSome {fs : List Factory} {a b : Nat} (p : GPath fs a b) :
    (lookupFact fs a).isSome := by
  cases p with
  | single e => rcases e with ⟨f, hf, -, -⟩; rw [hf]; rfl
  | cons e _ => rcases e with ⟨f, hf, -, -⟩; rw [hf]; rfl

/-- The child relation for accessibility: `childRel fs b a` holds when
`a` has a dependency edge to `b`. -/
def childRel (fs : List Factory) : Nat → Nat → Prop :=
  fun b a => edge fs a b

theorem no_cycle_of_acc {fs : List Factory} {a : Nat}
    (h : Acc (childRel fs) a) : ¬ GPath fs a a := by
  induction h with
  | intro x hx ih =>
    intro p
    cases p with
    | single e => exact ih x e (.single e)
    | cons e p' => exact ih _ e (p'.snoc e)

theorem edge_congr {fs1 fs2 : List Factory}
    (h : ∀ t, lookupFact fs1 t = lookupFact fs2 t) {a b : Nat}
    (he : edge fs1 a b) : edge fs2 a b := by
  rcases he with ⟨f, hf, hm, hr⟩
  exact ⟨f, by rw [← h a]; exact hf, hm, by rw [← h b]; exact hr⟩

theorem GPath_congr {fs1 fs2 : List Factory}
    (h : ∀ t, lookupFact fs1 t = lookupFact fs2 t) {a b : Nat}
    (p : GPath fs1 a b) : GPath fs2 a b := by
  induction p with
  | single e => exact .single (edge_congr h e)
  | cons e _ ih => exact .cons (edge_congr h e) ih

theorem lookupFact_dedup_eq (xs : List Factory) (t : Nat) :
    lookupFact (dedupLastWins xs) t = lookupFact xs t := by
  rw [← findFact_eq_lookupFact (nodup_symsOf_dedup xs) t, findFact_dedup]

/-! ## The fuel measure of the walk -/

/-- The number of registered symbols not yet visited; the depth of the
walk recursion is bounded by it. -/
def missCount (fs : List Factory) (vis : List Nat) : Nat :=
  ((symsOf fs).dedup.filter (fun t => decide (t ∉ vis))).length

theorem length_filter_mono {l : List Nat} {p q : Nat → Bool}
    (hpq : ∀ a, p a = true → q a = true) :
    (l.filter p).length ≤ (l.filter q).length := by
  induction l with
  | nil => exact Nat.le_refl _
  | cons x l ih =>
    cases hp : p x with
    | true =>
      rw [List.filter_cons_of_pos hp, List.filter_cons_of_pos (hpq x hp)]
      exact Nat.succ_le_succ ih
    | false =>
      rw [List.filter_cons_of_neg (by simp [hp])]
      cases hq : q x with
      | true =>
        rw [List.filter_cons_of_pos hq]
        exact Nat.le_succ_of_le ih
      | false =>
        rw [List.filter_cons_of_neg (by simp [hq])]
        exact ih

theorem missCount_le (fs : List Factory) (vis : List Nat) :
    missCount fs vis ≤ fs.length := by
  calc ((symsOf fs).dedup.filter _).length
      ≤ (symsOf fs).dedup.length := List.length_filter_le _ _
    _ ≤ (symsOf fs).length := (List.dedup_sublist _).length_le
    _ = fs.length := List.length_map _ _

theorem missCount_lt (fs : List Factory) {s : Nat} {vis : List Nat}
    (hreg : (lookupFact fs s).isSome) (hnv : s ∉ vis) :
    missCount fs (s :: vis) < missCount fs vis := by
  have hmem : s ∈ (symsOf fs).dedup := by
    rw [List.mem_dedup]
    rcases lookupFact_isSome_iff.1 hreg with ⟨f, hf, hsym⟩
    rw [← hsym]
    exact List.mem_map_of_mem (fun f => f.provides.sym) hf
  rcases List.append_of_mem hmem with ⟨l₁, l₂, hsplit⟩
  unfold missCount
  rw [hsplit]
  have hmono : ∀ a : Nat, decide (a ∉ s :: vis) = true → decide (a ∉ vis) = true := by
    intro a ha
    simp only [decide_eq_true_eq] at ha ⊢
    exact fun hm => ha (List.mem_cons_of_mem _ hm)
  rw [List.filter_append, List.filter_append, List.length_append, List.length_append,
    List.filter_cons_of_neg (by simp), List.filter_cons_of_pos (by simpa using hnv)]
  have h1 := length_filter_mono (l := l₁) hmono
  have h2 := length_filter_mono (l := l₂) hmono
  calc (l₁.filter fun t => decide (t ∉ s :: vis)).length
        + (l₂.filter fun t => decide (t ∉ s :: vis)).length
      ≤ (l₁.filter fun t => decide (t ∉ vis)).length
        + (l₂.filter fun t => decide (t ∉ vis)).length := Nat.add_le_add h1 h2
    _ < (l₁.filter fun t => decide (t ∉ vis)).length
        + ((s :: l₂.filter fun t => decide (t ∉ vis)).length) := by
          rw [List.length_cons]
          exact Nat.add_lt_add_left (Nat.lt_succ_self _) _

theorem missCount_mono_subset {fs : List Factory} {vis vis' : List Nat}
    (h : vis ⊆ vis') : missCount fs vis' ≤ missCount fs vis := by
  apply length_filter_mono
  intro a ha
  simp only [decide_eq_true_eq] at ha ⊢
  exact fun hm => ha (h hm)

/-! ## Properties of the cycle walk -/

theorem walkKids_mono {w : Nat → List Nat → Except Err (List Nat)}
    (Hw : ∀ c vis vis', w c vis = .ok vis' → vis ⊆ vis') :
    ∀ (ks : List Nat) (vis vis' : List Nat),
      walkKids w ks vis = .ok vis' → vis ⊆ vis' := by
  intro ks
  induction ks with
  | nil =>
    intro vis vis' h
    simp only [walkKids] at h
    injection h with h
    subst h
    exact List.Subset.refl _
  | cons c cs ih =>
    intro vis vis' h
    simp only [walkKids] at h
    cases hw : w c vis with
    | error e => rw [hw] at h; cases h
    | ok vis1 =>
      rw [hw] at h
      exact List.Subset.trans (Hw _ _ _ hw) (ih _ _ h)

theorem walkSym_mono (fs : List Factory) :
    ∀ (fuel s : Nat) (vis stack : List Nat) (path : List String) (vis' : List Nat),
      walkSym fs fuel s vis stack path = .ok vis' → vis ⊆ vis' := by
  intro fuel
  induction fuel with
  | zero =>
    intro s vis stack path vis' h
    simp only [walkSym] at h
    cases h
  | succ fuel ih =>
    intro s vis stack path vis' h
    simp only [walkSym] at h
    split at h
    · injection h with h
      subst h
      exact List.Subset.refl _
    · rename_i f hl
      split at h
      · cases h
      · split at h
        · injection h with h
          subst h
          exact List.Subset.refl _
        · rename_i hst hv
          have hsub := walkKids_mono
            (fun c v v' hw => ih c v (s :: stack) (path ++ [f.provides.name]) v' hw) _ _ _ h
          exact fun x hx => hsub (List.mem_cons_of_mem _ hx)

/-- Every visited node not on the stack is accessible: the invariant of
the three-color scheme. -/
def BlackAcc (fs : List Factory) (vis stack : List Nat) : Prop :=
  ∀ v ∈ vis, v ∉ stack → Acc (childRel fs) v

theorem walkKids_sound {fs : List Factory} {stack : List Nat}
    {w : Nat → List Nat → Except Err (List Nat)}
    (Hmono : ∀ c vis vis', w c vis = .ok vis' → vis ⊆ vis')
    (Hw : ∀ c vis vis', w c vis = .ok vis' → BlackAcc fs vis stack →
      BlackAcc fs vis' stack ∧ ((lookupFact fs c).isSome → c ∈ vis' ∧ c ∉ stack)) :
    ∀ (ks : List Nat) (vis vis' : List Nat),
      walkKids w ks vis = .ok vis' → BlackAcc fs vis stack →
      BlackAcc fs vis' stack ∧ vis ⊆ vis' ∧
        ∀ c ∈ ks, (lookupFact fs c).isSome → c ∈ vis' ∧ c ∉ stack := by
  intro ks
  induction ks with
  | nil =>
    intro vis vis' h hb
    simp only [walkKids] at h
    injection h with h
    subst h
    exact ⟨hb, List.Subset.refl _, fun c hc => absurd hc (List.not_mem_nil c)⟩
  | cons c cs ih =>
    intro vis vis' h hb
    simp only [walkKids] at h
    cases hw : w c vis with
    | error e => rw [hw] at h; cases h
    | ok vis1 =>
      rw [hw] at h
      obtain ⟨hb1, hcreg⟩ := Hw _ _ _ hw hb
      obtain ⟨hb', hsub, hrest⟩ := ih _ _ h hb1
      refine ⟨hb', List.Subset.trans (Hmono _ _ _ hw) hsub, ?_⟩
      intro d hd hreg
      rcases List.mem_cons.1 hd with hd | hd
      · subst hd
        obtain ⟨h1, h2⟩ := hcreg hreg
        exact ⟨hsub h1, h2⟩
      · exact hrest d hd hreg

theorem walkSym_sound (fs : List Factory) :
    ∀ (fuel s : Nat) (vis stack : List Nat) (path : List String) (vis' : List Nat),
      walkSym fs fuel s vis stack path = .ok vis' → BlackAcc fs vis stack →
      BlackAcc fs vis' stack ∧ ((lookupFact fs s).isSome → s ∈ vis' ∧ s ∉ stack) := by
  intro fuel
  induction fuel with
  | zero =>
    intro s vis stack path vis' h hb
    simp only [walkSym] at h
    cases h
  | succ fuel ih =>
    intro s vis stack path vis' h hb
    simp only [walkSym] at h
    split at h
    · rename_i hl
      injection h with h
      subst h
      exact ⟨hb, fun hreg => by rw [hl] at hreg; cases hreg⟩
    · rename_i f hl
      split at h
      · cases h
      · rename_i hst
        split at h
        · rename_i hv
          injection h with h
          subst h
          exact ⟨hb, fun _ => ⟨hv, hst⟩⟩
        · rename_i hv
          have hb1 : BlackAcc fs (s :: vis) (s :: stack) := by
            intro v hvm hvs
            rcases List.mem_cons.1 hvm with hv' | hv'
            · exact absurd (hv' ▸ List.mem_cons_self s stack) hvs
            · exact hb v hv' (fun hm => hvs (List.mem_cons_of_mem _ hm))
          obtain ⟨hb', hsub, hkids⟩ :=
            walkKids_sound
              (fun c v v' hw =>
                walkSym_mono fs fuel c v (s :: stack) (path ++ [f.provides.name]) v' hw)
              (fun c v v' hw hbb =>
                ih c v (s :: stack) (path ++ [f.provides.name]) v' hw hbb)
              _ _ _ h hb1
          have hsmem : s ∈ vis' := hsub (List.mem_cons_self _ _)
          refine ⟨?_, fun _ => ⟨hsmem, hst⟩⟩
          intro v hvm hvs
          by_cases hveq : v = s
          · subst hveq
            constructor
            intro y hy
            have hy' : edge fs v y := hy
            rcases hy' with ⟨g, hg, hym, hyreg⟩
            rw [hl] at hg
            injection hg with hg
            subst hg
            obtain ⟨hy1, hy2⟩ := hkids y hym hyreg
            exact hb' y hy1 hy2
          · refine hb' v hvm ?_
            intro hm
            rcases List.mem_cons.1 hm with hm | hm
            · exact hveq hm
            · exact hvs hm

theorem checkCircLoop_sound (fs : List Factory) :
    ∀ (l : List Factory) (vis vis' : List Nat),
      checkCircLoop fs l vis = .ok vis' →
      (∀ v ∈ vis, Acc (childRel fs) v) →
      (∀ v ∈ vis', Acc (childRel fs) v) ∧ vis ⊆ vis' ∧
        ∀ f ∈ l, (lookupFact fs f.provides.sym).isSome → f.provides.sym ∈ vis' := by
  intro l
  induction l with
  | nil =>
    intro vis vis' h hb
    simp only [checkCircLoop] at h
    injection h with h
    subst h
    exact ⟨hb, List.Subset.refl _, fun f hf => absurd hf (List.not_mem_nil f)⟩
  | cons f rest ih =>
    intro vis vis' h hb
    simp only [checkCircLoop] at h
    cases hw : walkSym fs (fs.length + 1) f.provides.sym vis [] [] with
    | error e => rw [hw] at h; cases h
    | ok vis1 =>
      rw [hw] at h
      have hb0 : BlackAcc fs vis [] := fun v hv _ => hb v hv
      obtain ⟨hb1, hregf⟩ :=
        walkSym_sound fs (fs.length + 1) f.provides.sym vis [] [] vis1 hw hb0
      have hb1' : ∀ v ∈ vis1, Acc (childRel fs) v :=
        fun v hv => hb1 v hv (List.not_mem_nil v)
      obtain ⟨hb', hsub, hrest⟩ := ih _ _ h hb1'
      have hsub1 := walkSym_mono fs (fs.length + 1) f.provides.sym vis [] [] vis1 hw
      refine ⟨hb', List.Subset.trans hsub1 hsub, ?_⟩
      intro g hg hreg
      rcases List.mem_cons.1 hg with hg | hg
      · subst hg
        exact hsub ((hregf hreg).1)
      · exact hrest g hg hreg

theorem checkCircular_sound {fs : List Factory} (h : checkCircular fs = .ok ()) :
    ∀ s, (lookupFact fs s).isSome → Acc (childRel fs) s := by
  intro s hreg
  unfold checkCircular at h
  cases hc : checkCircLoop fs fs [] with
  | error e => rw [hc] at h; cases h
  | ok visf =>
    obtain ⟨hacc, -, hmem⟩ :=
      checkCircLoop_sound fs fs [] visf hc (fun v hv => absurd hv (List.not_mem_nil v))
    rcases lookupFact_isSome_iff.1 hreg with ⟨f, hf, hsym⟩
    have hs : f.provides.sym ∈ visf := hmem f hf (by rw [hsym]; exact hreg)
    rw [hsym] at hs
    exact hacc s hs

/-- A cycle-shaped module-init error: the listed path ends with a name
that already occurs earlier in it. -/
def CycErr (e : Err) : Prop :=
  ∃ pre nm suf, e = .moduleInit (cycleMsg (pre ++ nm :: (suf ++ [nm])))

theorem walkKids_classify {fs : List Factory} {fuelB : Nat}
    {w : Nat → List Nat → Except Err (List Nat)}
    (Hmono : ∀ c vis vis', w c vis = .ok vis' → vis ⊆ vis')
    (Hw : ∀ c vis, missCount fs vis < fuelB →
      (∃ vis', w c vis = .ok vis') ∨ ∃ e, w c vis = .error e ∧ CycErr e) :
    ∀ (ks : List Nat) (vis : List Nat), missCount fs vis < fuelB →
      (∃ vis', walkKids w ks vis = .ok vis') ∨
        ∃ e, walkKids w ks vis = .error e ∧ CycErr e := by
  intro ks
  induction ks with
  | nil => intro vis _; exact Or.inl ⟨vis, rfl⟩
  | cons c cs ih =>
    intro vis hc
    rcases Hw c vis hc with ⟨vis1, hok⟩ | ⟨e, herr, hcyc⟩
    · have hc1 : missCount fs vis1 ≤ missCount fs vis :=
        missCount_mono_subset (Hmono _ _ _ hok)
      rcases ih vis1 (Nat.lt_of_le_of_lt hc1 hc) with ⟨vis', h⟩ | ⟨e, h, hcyc⟩
      · exact Or.inl ⟨vis', by simp only [walkKids, hok]; exact h⟩
      · exact Or.inr ⟨e, by simp only [walkKids, hok]; exact h, hcyc⟩
    · exact Or.inr ⟨e, by simp only [walkKids, herr], hcyc⟩

theorem walkSym_classify (fs : List Factory) :
    ∀ (fuel s : Nat) (vis stack : List Nat) (path : List String),
      missCount fs vis < fuel →
      (∀ t ∈ stack, ∃ g, lookupFact fs t = some g ∧ g.provides.name ∈ path) →
      (∃ vis', walkSym fs fuel s vis stack path = .ok vis') ∨
        ∃ e, walkSym fs fuel s vis stack path = .error e ∧ CycErr e := by
  intro fuel
  induction fuel with
  | zero => intro s vis stack path hc _; exact absurd hc (Nat.not_lt_zero _)
  | succ fuel ih =>
    intro s vis stack path hc hstn
    cases hl : lookupFact fs s with
    | none => exact Or.inl ⟨vis, by simp only [walkSym, hl]⟩
    | some f =>
      by_cases hst : s ∈ stack
      · refine Or.inr ⟨.moduleInit (cycleMsg (path ++ [f.provides.name])), ?_, ?_⟩
        · simp only [walkSym, hl]
          rw [if_pos hst]
        · rcases hstn s hst with ⟨g, hg, hname⟩
          rw [hl] at hg
          injection hg with hg
          subst hg
          rcases List.append_of_mem hname with ⟨pre, suf, hsplit⟩
          refine ⟨pre, f.provides.name, suf, ?_⟩
          rw [hsplit, List.append_assoc, List.cons_append]
      · by_cases hv : s ∈ vis
        · exact Or.inl ⟨vis, by simp only [walkSym, hl]; rw [if_neg hst, if_pos hv]⟩
        · have hreg : (lookupFact fs s).isSome := by rw [hl]; rfl
          have hc1 : missCount fs (s :: vis) < fuel :=
            Nat.lt_of_lt_of_le (missCount_lt fs hreg hv) (Nat.lt_succ_iff.1 hc)
          have hstn' : ∀ t ∈ s :: stack, ∃ g, lookupFact fs t = some g ∧
              g.provides.name ∈ path ++ [f.provides.name] := by
            intro t ht
            rcases List.mem_cons.1 ht with ht | ht
            · subst ht
              exact ⟨f, hl, List.mem_append_right _ (List.mem_singleton.2 rfl)⟩
            · rcases hstn t ht with ⟨g, hg, hn⟩
              exact ⟨g, hg, List.mem_append_left _ hn⟩
          have hkids := walkKids_classify
            (fun c v v' hw =>
              walkSym_mono fs fuel c v (s :: stack) (path ++ [f.provides.name]) v' hw)
            (fun c v hcv => ih c v (s :: stack) (path ++ [f.provides.name]) hcv hstn')
            (memberSyms f) (s :: vis) hc1
          rcases hkids with ⟨vis', hok⟩ | ⟨e, herr, hcyc⟩
          · exact Or.inl ⟨vis',
              by simp only [walkSym, hl]; rw [if_neg hst, if_neg hv]; exact hok⟩
          · exact Or.inr ⟨e,
              by simp only [walkSym, hl]; rw [if_neg hst, if_neg hv]; exact herr, hcyc⟩

theorem checkCircLoop_classify (fs : List Factory) :
    ∀ (l : List Factory) (vis : List Nat),
      (∃ vis', checkCircLoop fs l vis = .ok vis') ∨
        ∃ e, checkCircLoop fs l vis = .error e ∧ CycErr e := by
  intro l
  induction l with
  | nil => intro vis; exact Or.inl ⟨vis, rfl⟩
  | cons f rest ih =>
    intro vis
    have hc : missCount fs vis < fs.length + 1 := Nat.lt_succ_of_le (missCount_le fs vis)
    rcases walkSym_classify fs (fs.length + 1) f.provides.sym vis [] [] hc
        (fun t ht => absurd ht (List.not_mem_nil t)) with ⟨vis1, hok⟩ | ⟨e, herr, hcyc⟩
    · rcases ih vis1 with ⟨vis', h⟩ | ⟨e, h, hcyc⟩
      · exact Or.inl ⟨vis', by simp only [checkCircLoop, hok]; exact h⟩
      · exact Or.inr ⟨e, by simp only [checkCircLoop, hok]; exact h, hcyc⟩
    · exact Or.inr ⟨e, by simp only [checkCircLoop, herr], hcyc⟩

theorem checkCircular_classify (fs : List Factory) :
    checkCircular fs = .ok () ∨ ∃ e, checkCircular fs = .error e ∧ CycErr e := by
  rcases checkCircLoop_classify fs fs [] with ⟨vis', h⟩ | ⟨e, h, hcyc⟩
  · left
    unfold checkCircular
    rw [h]
  · right
    exact ⟨e, by unfold checkCircular; rw [h], hcyc⟩

theorem walkKids_ok {fs : List Factory} {fuelB : Nat} {P : Nat → Prop}
    {w : Nat → List Nat → Except Err (List Nat)}
    (Hmono : ∀ c vis vis', w c vis = .ok vis' → vis ⊆ vis')
    (Hw : ∀ c vis, missCount fs vis < fuelB → P c → ∃ vis', w c vis = .ok vis') :
    ∀ (ks : List Nat) (vis : List Nat), missCount fs vis < fuelB →
      (∀ c ∈ ks, P c) → ∃ vis', walkKids w ks vis = .ok vis' := by
  intro ks
  induction ks with
  | nil => intro vis _ _; exact ⟨vis, rfl⟩
  | cons c cs ih =>
    intro vis hc hP
    rcases Hw c vis hc (hP c (List.mem_cons_self _ _)) with ⟨vis1, hok⟩
    have hc1 : missCount fs vis1 ≤ missCount fs vis :=
      missCount_mono_subset (Hmono _ _ _ hok)
    rcases ih vis1 (Nat.lt_of_le_of_lt hc1 hc)
        (fun d hd => hP d (List.mem_cons_of_mem _ hd)) with ⟨vis', h⟩
    exact ⟨vis', by simp only [walkKids, hok]; exact h⟩

theorem walkSym_ok_of_acyclic (fs : List Factory) (hacy : ∀ a, ¬ GPath fs a a) :
    ∀ (fuel s : Nat) (vis stack : List Nat) (path : List String),
      missCount fs vis < fuel →
      ((lookupFact fs s).isSome → ∀ t ∈ stack, GPath fs t s) →
      ∃ vis', walkSym fs fuel s vis stack path = .ok vis' := by
  intro fuel
  induction fuel with
  | zero => intro s vis stack path hc _; exact absurd hc (Nat.not_lt_zero _)
  | succ fuel ih =>
    intro s vis stack path hc hstk
    cases hl : lookupFact fs s with
    | none => exact ⟨vis, by simp only [walkSym, hl]⟩
    | some f =>
      have hreg : (lookupFact fs s).isSome := by rw [hl]; rfl
      by_cases hst : s ∈ stack
      · exact absurd (hstk hreg s hst) (hacy s)
      · by_cases hv : s ∈ vis
        · exact ⟨vis, by simp only [walkSym, hl]; rw [if_neg hst, if_pos hv]⟩
        · have hc1 : missCount fs (s :: vis) < fuel :=
            Nat.lt_of_lt_of_le (missCount_lt fs hreg hv) (Nat.lt_succ_iff.1 hc)
          have hkids := walkKids_ok
            (P := fun c => (lookupFact fs c).isSome → ∀ t ∈ s :: stack, GPath fs t c)
            (fun c v v' hw =>
              walkSym_mono fs fuel c v (s :: stack) (path ++ [f.provides.name]) v' hw)
            (fun c v hcv hPc => ih c v (s :: stack) (path ++ [f.provides.name]) hcv hPc)
            (memberSyms f) (s :: vis) hc1 ?_
          · rcases hkids with ⟨vis', hok⟩
            exact ⟨vis', by simp only [walkSym, hl]; rw [if_neg hst, if_neg hv]; exact hok⟩
          · intro c hcm hcreg t ht
            have hedge : edge fs s c := ⟨f, hl, hcm, hcreg⟩
            rcases List.mem_cons.1 ht with ht | ht
            · subst ht
              exact .single hedge
            · exact (hstk hreg t ht).snoc hedge

theorem checkCircLoop_ok_of_acyclic (fs : List Factory) (hacy : ∀ a, ¬ GPath fs a a) :
    ∀ (l : List Factory) (vis : List Nat), ∃ vis', checkCircLoop fs l vis = .ok vis' := by
  intro l
  induction l with
  | nil => intro vis; exact ⟨vis, rfl⟩
  | cons f rest ih =>
    intro vis
    have hc : missCount fs vis < fs.length + 1 := Nat.lt_succ_of_le (missCount_le fs vis)
    rcases walkSym_ok_of_acyclic fs hacy (fs.length + 1) f.provides.sym vis [] []
        hc (fun _ t ht => absurd ht (List.not_mem_nil t)) with ⟨vis1, hok⟩
    rcases ih vis1 with ⟨vis', h⟩
    exact ⟨vis', by simp only [checkCircLoop, hok]; exact h⟩

theorem checkCircular_ok_of_acyclic {fs : List Factory}
    (hacy : ∀ a, ¬ GPath fs a a) : checkCircular fs = .ok () := by
  rcases checkCircLoop_ok_of_acyclic fs hacy fs [] with ⟨vis', h⟩
  unfold checkCircular
  rw [h]

theorem checkCircular_cycle_err {fs : List Factory} {a : Nat} (hp : GPath fs a a) :
    ∃ e, checkCircular fs = .error e ∧ CycErr e := by
  rcases checkCircular_classify fs with hok | h
  · exact absurd hp (no_cycle_of_acc (checkCircular_sound hok a hp.src_isSome))
  · exact h

/-! ## Module assembly facts -/

theorem fromEntries_circ_err {entries : List Entry} {e : Err}
    (h : checkCircular (dedupLastWins (flattenEntries entries)) = .error e) :
    fromEntries entries = .error e := by
  unfold fromEntries
  rw [h]

theorem fromEntries_missing_err {entries : List Entry} {e : Err}
    (hcc : checkCircular (dedupLastWins (flattenEntries entries)) = .ok ())
    (h : checkMissingAll (dedupLastWins (flattenEntries entries))
          (dedupLastWins (flattenEntries entries)) = .error e) :
    fromEntries entries = .error e := by
  unfold fromEntries
  rw [hcc, h]

theorem fromEntries_ok_of {entries : List Entry}
    (hcc : checkCircular (dedupLastWins (flattenEntries entries)) = .ok ())
    (hcm : checkMissingAll (dedupLastWins (flattenEntries entries))
          (dedupLastWins (flattenEntries entries)) = .ok ()) :
    fromEntries entries = .ok ⟨dedupLastWins (flattenEntries entries)⟩ := by
  unfold fromEntries
  rw [hcc, hcm]

theorem fromEntries_ok_inv {entries : List Entry} {mod : ServiceModule}
    (h : fromEntries entries = .ok mod) :
    mod.factories = dedupLastWins (flattenEntries entries) ∧
    checkCircular (dedupLastWins (flattenEntries entries)) = .ok () ∧
    ∀ f ∈ dedupLastWins (flattenEntries entries),
      missingOf f (dedupLastWins (flattenEntries entries)) = [] := by
  unfold fromEntries at h
  cases hcc : checkCircular (dedupLastWins (flattenEntries entries)) with
  | error e => rw [hcc] at h; cases h
  | ok u =>
    cases u
    rw [hcc] at h
    cases hcm : checkMissingAll (dedupLastWins (flattenEntries entries))
        (dedupLastWins (flattenEntries entries)) with
    | error e => rw [hcm] at h; cases h
    | ok u =>
      cases u
      rw [hcm] at h
      injection h with h
      subst h
      exact ⟨rfl, rfl, (checkMissingAll_ok_iff _).1 hcm⟩

theorem acyclic_of_checkCircular_ok {xs : List Factory}
    (h : checkCircular (dedupLastWins xs) = .ok ()) : ∀ a, ¬ GPath xs a a := by
  intro a hp
  have hp' : GPath (dedupLastWins xs) a a :=
    GPath_congr (fun t => (lookupFact_dedup_eq xs t).symm) hp
  exact no_cycle_of_acc (checkCircular_sound h a hp'.src_isSome) hp'

theorem isRegistered_dedup (k : SKey) (xs : List Factory) :
    isRegistered k (dedupLastWins xs) = isRegistered k xs := by
  have h1 := @isRegistered_iff_lookup k (dedupLastWins xs)
  have h2 := @isRegistered_iff_lookup k xs
  rw [lookupFact_dedup_eq] at h1
  cases hb : isRegistered k xs with
  | true => exact h1.2 (h2.1 hb)
  | false =>
    cases hd : isRegistered k (dedupLastWins xs) with
    | false => rfl
    | true => rw [← hb, ← h2.2 (h1.1 hd)]

theorem missingOf_dedup (f : Factory) (xs : List Factory) :
    missingOf f (dedupLastWins xs) = missingOf f xs := by
  unfold missingOf
  apply List.filter_congr
  intro k _
  rw [isRegistered_dedup]

/-! ## Concrete scenario services

Shared concrete keys and factories exercising the spec scenarios. -/

def key0 : SKey := ⟨0, "K0"⟩

def key1 : SKey := ⟨1, "Key1"⟩

def key2 : SKey := ⟨2, "Key2"⟩

def key3 : SKey := ⟨3, "Key3"⟩

/-- A factory providing Key1 and depending on [Key1]. -/
def facSelf : Factory :=
  { provides := key1, dependsOn := [.plain key1], kind := .transient,
    ctor := fun _ _ => .ok (.str "value1") }

/-- A factory providing K0 and depending on [Key1]. -/
def facK0 : Factory :=
  { provides := key0, dependsOn := [.plain key1], kind := .transient,
    ctor := fun _ _ => .ok (.str "value0") }

/-- A factory providing Key1 and depending on the unregistered Key2. -/
def facMiss : Factory :=
  { provides := key1, dependsOn := [.plain key2], kind := .transient,
    ctor := fun _ _ => .ok (.str "value1") }

/-- A factory providing Key1, self-dependent and missing Key2 at once. -/
def facBoth : Factory :=
  { provides := key1, dependsOn := [.plain key1, .plain key2], kind := .transient,
    ctor := fun _ _ => .ok (.str "value1") }

/-- First of two factories providing the same Key1. -/
def fac1a : Factory :=
  { provides := key1, dependsOn := [], kind := .transient,
    ctor := fun _ _ => .ok (.str "value1a") }

/-- Second of two factories providing the same Key1; last wins. -/
def fac1b : Factory :=
  { provides := key1, dependsOn := [], kind := .transient,
    ctor := fun _ _ => .ok (.str "value1b") }

/-! ## Claims about module assembly -/

/-- Claim C2, corrected at a concrete input: with factories K0 -> [Key1]
and Key1 -> [Key1], the only cycle is the self-dependency of Key1, whose
path with the repeated key both first and last would read
"Circular dependency detected: Key1 -> Key1"; the code instead reports
the full traversal path from the walk root K0, so the repeated key is
last but not first. -/
theorem c2_counterexample :
    fromEntries [.fac facK0, .fac facSelf]
      = .error (.moduleInit "Circular dependency detected: K0 -> Key1 -> Key1") ∧
    "Circular dependency detected: K0 -> Key1 -> Key1"
      ≠ "Circular dependency detected: Key1 -> Key1" := by
  exact ⟨rfl, by decide⟩

/-- Claim C2 (amended): for every entry sequence whose factory dependency
graph (selector edges expanded to member keys, unregistered targets
skipped) contains a cycle, `from` fails with a cycle error whose message
lists the traversal path in discovery order from the walk root, ending
with a key name that already occurs earlier in the path — the repeated
key closes the cycle and appears last, but is first only when the walk
root lies on the cycle; in particular a factory providing Key1 and
depending on [Key1] fails with the message
"Circular dependency detected: Key1 -> Key1". -/
theorem c2_cycle_error :
    (∀ (entries : List Entry) (a : Nat),
      GPath (flattenEntries entries) a a →
      ∃ pre nm suf, fromEntries entries
        = .error (.moduleInit (cycleMsg (pre ++ nm :: (suf ++ [nm]))))) ∧
    fromEntries [.fac facSelf]
      = .error (.moduleInit "Circular dependency detected: Key1 -> Key1") := by
  constructor
  · intro entries a hp
    have hp' : GPath (dedupLastWins (flattenEntries entries)) a a :=
      GPath_congr (fun t => (lookupFact_dedup_eq _ t).symm) hp
    rcases checkCircular_cycle_err hp' with ⟨e, herr, pre, nm, suf, hshape⟩
    subst hshape
    exact ⟨pre, nm, suf, fromEntries_circ_err herr⟩
  · rfl

/-- Claim C2 witness: the general half applied to the self-dependency
module, the cycle witnessed by the explicit length-one path. -/
theorem c2_cycle_error_witness :
    ∃ pre nm suf, fromEntries [.fac facSelf]
      = .error (.moduleInit (cycleMsg (pre ++ nm :: (suf ++ [nm])))) :=
  c2_cycle_error.1 [.fac facSelf] 1
    (GPath.single ⟨facSelf, rfl, by decide, rfl⟩)

/-- Claim C3, corrected at concrete inputs. First: a factory providing
Key1 and depending on the unregistered Key2 fails with a message whose
missing-key line carries two spaces before the arrow (one from the
message template, one from the item prefix), so the single-space text the
claim predicts does not occur in it. Second: when the factory set has
both a missing dependency and a cycle, the cycle check runs first and the
message is the cycle message, not a missing-dependency message. -/
theorem c3_counterexample :
    (fromEntries [.fac facMiss]
        = .error (.moduleInit "Key1 will fail because it depends on:\n  -> Key2") ∧
      strHasSub "Key1 will fail because it depends on:\n  -> Key2"
        "Key1 will fail because it depends on:\n -> Key2" = false) ∧
    (fromEntries [.fac facBoth]
        = .error (.moduleInit "Circular dependency detected: Key1 -> Key1") ∧
      strHasSub "Circular dependency detected: Key1 -> Key1" "will fail" = false) := by
  exact ⟨⟨rfl, by decide⟩, ⟨rfl, by decide⟩⟩

/-- Claim C3 (amended): for every entry sequence whose dependency graph
is acyclic and in which some module factory depends (directly or via
selector members) on keys no factory provides, `from` fails with the
module-init error of the first such factory in module order; the message
names that factory and enumerates every missing key it needs, in the
two-space format "<name> will fail because it depends on:\n  -> <key>"
(further keys on their own " -> " lines); in particular a factory
providing Key1 and depending on the unregistered Key2 fails with a
message containing "Key1 will fail because it depends on:\n  -> Key2". -/
theorem c3_missing_error :
    (∀ entries : List Entry,
      (∀ a, ¬ GPath (flattenEntries entries) a a) →
      (∃ f ∈ dedupLastWins (flattenEntries entries),
        missingOf f (dedupLastWins (flattenEntries entries)) ≠ []) →
      ∃ l₁ f l₂,
        dedupLastWins (flattenEntries entries) = l₁ ++ f :: l₂ ∧
        (∀ g ∈ l₁, missingOf g (dedupLastWins (flattenEntries entries)) = []) ∧
        missingOf f (dedupLastWins (flattenEntries entries)) ≠ [] ∧
        fromEntries entries = .error (.moduleInit
          (missingMsg f (missingOf f (dedupLastWins (flattenEntries entries)))))) ∧
    (fromEntries [.fac facMiss]
        = .error (.moduleInit "Key1 will fail because it depends on:\n  -> Key2") ∧
      strHasSub "Key1 will fail because it depends on:\n  -> Key2"
        "Key1 will fail because it depends on:\n  -> Key2" = true) := by
  constructor
  · intro entries hacy hmiss
    have hacy' : ∀ a, ¬ GPath (dedupLastWins (flattenEntries entries)) a a := by
      intro a hp
      exact hacy a (GPath_congr (lookupFact_dedup_eq _) hp)
    have hcc := checkCircular_ok_of_acyclic hacy'
    rcases checkMissingAll_first_err _ hmiss with ⟨l₁, f, l₂, hsplit, hpass, hm, herr⟩
    exact ⟨l₁, f, l₂, hsplit, hpass, hm, fromEntries_missing_err hcc herr⟩
  · exact ⟨rfl, by decide⟩

/-- Claim C3 witness: the general half applied to the Key1 -> [Key2]
module, acyclicity discharged through the compiled cycle check. -/
theorem c3_missing_error_witness :
    ∃ l₁ f l₂,
      dedupLastWins (flattenEntries [.fac facMiss]) = l₁ ++ f :: l₂ ∧
      (∀ g ∈ l₁, missingOf g (dedupLastWins (flattenEntries [.fac facMiss])) = []) ∧
      missingOf f (dedupLastWins (flattenEntries [.fac facMiss])) ≠ [] ∧
      fromEntries [.fac facMiss] = .error (.moduleInit
        (missingMsg f (missingOf f (dedupLastWins (flattenEntries [.fac facMiss]))))) :=
  c3_missing_error.1 [.fac facMiss]
    (acyclic_of_checkCircular_ok (by rfl))
    ⟨facMiss, List.mem_singleton.2 rfl, by decide⟩

/-- Claim C4: for every entry sequence whose flattened factory list has
an acyclic dependency graph and is fully satisfiable, `from` succeeds;
the module holds the last-wins deduplicated factories (first-occurrence
order, surviving factory per key, never merged), its factory count is the
number of distinct provided-key identities, and the factory `get` locates
for any key is the surviving (last) factory of the flattened sequence; in
particular two factories providing Key1 yield a module containing only
the second, whose `get` returns "value1b". -/
theorem c4_last_wins :
    (∀ entries : List Entry,
      (∀ a, ¬ GPath (flattenEntries entries) a a) →
      (∀ f ∈ flattenEntries entries, missingOf f (flattenEntries entries) = []) →
      ∃ mod, fromEntries entries = .ok mod ∧
        mod.factories = dedupLastWins (flattenEntries entries) ∧
        mod.factories.length = (symsOf (flattenEntries entries)).dedup.length ∧
        ∀ key : SKey, findFact mod.factories key.sym
          = lookupFact (flattenEntries entries) key.sym) ∧
    (fromEntries [.fac fac1a, .fac fac1b] = .ok ⟨[fac1b]⟩ ∧
      (moduleGet ⟨[fac1b]⟩ key1 {}).1 = .ok (.str "value1b")) := by
  constructor
  · intro entries hacy hsat
    have hacy' : ∀ a, ¬ GPath (dedupLastWins (flattenEntries entries)) a a := by
      intro a hp
      exact hacy a (GPath_congr (lookupFact_dedup_eq _) hp)
    have hcc := checkCircular_ok_of_acyclic hacy'
    have hcm : checkMissingAll (dedupLastWins (flattenEntries entries))
        (dedupLastWins (flattenEntries entries)) = .ok () := by
      rw [checkMissingAll_ok_iff]
      intro f hf
      rw [missingOf_dedup]
      exact hsat f (mem_dedupLastWins hf)
    refine ⟨⟨dedupLastWins (flattenEntries entries)⟩, fromEntries_ok_of hcc hcm,
      rfl, length_dedupLastWins _, ?_⟩
    intro key
    exact findFact_dedup _ _
  · exact ⟨rfl, rfl⟩

/-- Claim C4 witness: the general half applied to the two factories that
both provide Key1. -/
theorem c4_last_wins_witness :
    ∃ mod, fromEntries [.fac fac1a, .fac fac1b] = .ok mod ∧
      mod.factories = dedupLastWins (flattenEntries [.fac fac1a, .fac fac1b]) ∧
      mod.factories.length
        = (symsOf (flattenEntries [.fac fac1a, .fac fac1b])).dedup.length ∧
      ∀ key : SKey, findFact mod.factories key.sym
        = lookupFact (flattenEntries [.fac fac1a, .fac fac1b]) key.sym :=
  c4_last_wins.1 [.fac fac1a, .fac fac1b]
    (acyclic_of_checkCircular_ok (by rfl))
    (by
      intro f hf
      rcases List.mem_cons.1 hf with h | h
      · subst h; rfl
      · rcases List.mem_cons.1 h with h | h
        · subst h; rfl
        · cases h)

/-! ## Resolver support facts -/

theorem runCtor_state {f : Factory} {vals : List Value} {s : RState}
    {r : Except Err Value} {s' : RState} (h : runCtor f vals s = (r, s')) :
    s'.inits = s.inits ++ [f.provides.sym] ∧ s'.cache = s.cache ∧
      s'.nextId = s.nextId + 1 := by
  unfold runCtor at h
  cases hc : f.ctor vals s.nextId <;> simp only [hc] at h <;>
    (rw [Prod.mk.injEq] at h; rw [← h.2]; exact ⟨rfl, rfl, rfl⟩)

theorem runCtor_err_user {f : Factory} {vals : List Value} {s : RState}
    {e : Err} {s' : RState} (h : runCtor f vals s = (.error e, s')) :
    ∃ msg, e = .userError msg := by
  unfold runCtor at h
  cases hc : f.ctor vals s.nextId with
  | ok v =>
    simp only [hc] at h
    rw [Prod.mk.injEq] at h
    exact Except.noConfusion h.1
  | error msg =>
    simp only [hc] at h
    rw [Prod.mk.injEq] at h
    injection h.1 with he
    exact ⟨msg, he.symm⟩

theorem invokeFactory_err_user {f : Factory} {vals : List Value} {s : RState}
    {e : Err} {s' : RState} (h : invokeFactory f vals s = (.error e, s')) :
    ∃ msg, e = .userError msg := by
  unfold invokeFactory at h
  cases hk : f.kind with
  | transient =>
    rw [hk] at h
    exact runCtor_err_user h
  | singleton =>
    rw [hk] at h
    cases hl : lookupCache s.cache f.provides.sym with
    | some v =>
      simp only [hl] at h
      rw [Prod.mk.injEq] at h
      exact Except.noConfusion h.1
    | none =>
      simp only [hl] at h
      cases hrc : runCtor f vals s with
      | mk rc sc =>
        rw [hrc] at h
        cases rc with
        | ok v =>
          rw [Prod.mk.injEq] at h
          exact Except.noConfusion h.1
        | error e2 =>
          rw [Prod.mk.injEq] at h
          injection h.1 with he
          subst he
          exact runCtor_err_user hrc

theorem lookupCache_cons (t : Nat) (v : Value) (c : List (Nat × Value)) (σ : Nat) :
    lookupCache ((t, v) :: c) σ = if t = σ then some v else lookupCache c σ := by
  unfold lookupCache
  by_cases h : t = σ
  · rw [List.find?_cons_of_pos _ (by simpa using h), if_pos h]
    rfl
  · rw [List.find?_cons_of_neg _ (by simpa using h), if_neg h]

theorem sym_mem_memberSyms {f : Factory} {k : SKey}
    (h : DepKey.plain k ∈ f.dependsOn) : k.sym ∈ memberSyms f := by
  unfold memberSyms
  apply List.mem_map_of_mem
  unfold expandDeps
  exact List.mem_flatMap.2 ⟨.plain k, h, by simp [expandDep]⟩

theorem plain_mem_expandDeps {ds : List DepKey} {k : SKey}
    (h : DepKey.plain k ∈ ds) : k ∈ expandDeps ds := by
  unfold expandDeps
  exact List.mem_flatMap.2 ⟨.plain k, h, by simp [expandDep]⟩

/-- In a validated factory list every plain dependency of every factory
is itself provided. -/
theorem validated_plain_deps {entries : List Entry} {mod : ServiceModule}
    (h : fromEntries entries = .ok mod) :
    ∀ f ∈ mod.factories, ∀ k : SKey, DepKey.plain k ∈ f.dependsOn →
      (findFact mod.factories k.sym).isSome := by
  obtain ⟨hfac, -, hmiss⟩ := fromEntries_ok_inv h
  intro f hf k hk
  have hm : missingOf f mod.factories = [] := by
    rw [hfac]
    exact hmiss f (by rw [← hfac]; exact hf)
  have := (missingOf_eq_nil_iff.1 hm) k (plain_mem_expandDeps hk)
  exact isRegistered_iff_find.1 this

theorem resolveDepsA_not_notFound {m : List Factory} {fuel : Nat}
    (hg : ∀ (key : SKey) (s : RState) r s', getFuel m fuel key s = (r, s') →
      (findFact m key.sym).isSome → ∀ msg, r ≠ .error (.notFound msg)) :
    ∀ (ds : List DepKey) (s : RState) r s',
      resolveDepsA (getFuel m fuel) ds s = (r, s') →
      (∀ k : SKey, DepKey.plain k ∈ ds → (findFact m k.sym).isSome) →
      ∀ msg, r ≠ .error (.notFound msg) := by
  intro ds
  induction ds with
  | nil =>
    intro s r s' h _ msg hr
    subst hr
    simp only [resolveDepsA] at h
    rw [Prod.mk.injEq] at h
    exact Except.noConfusion h.1
  | cons d ds ih =>
    intro s r s' h hks msg hr
    subst hr
    simp only [resolveDepsA] at h
    cases hd : resolveDepA (getFuel m fuel) d s with
    | mk r1 s1 =>
      simp only [hd] at h
      cases r1 with
      | error e =>
        rw [Prod.mk.injEq] at h
        injection h.1 with he
        subst he
        cases d with
        | selector ms =>
          simp only [resolveDepA] at hd
          rw [Prod.mk.injEq] at hd
          exact Except.noConfusion hd.1
        | plain k =>
          exact hg k s _ _ hd (hks k (List.mem_cons_self _ _)) msg rfl
      | ok v =>
        cases hd2 : resolveDepsA (getFuel m fuel) ds s1 with
        | mk r2 s2 =>
          simp only [hd2] at h
          cases r2 with
          | error e =>
            rw [Prod.mk.injEq] at h
            injection h.1 with he
            subst he
            exact ih s1 _ _ hd2 (fun k hk => hks k (List.mem_cons_of_mem _ hk)) msg rfl
          | ok vs =>
            rw [Prod.mk.injEq] at h
            exact Except.noConfusion h.1

theorem getFuel_not_notFound {m : List Factory}
    (hdeps : ∀ f ∈ m, ∀ k : SKey, DepKey.plain k ∈ f.dependsOn →
      (findFact m k.sym).isSome) :
    ∀ (fuel : Nat) (key : SKey) (s : RState) r s', getFuel m fuel key s = (r, s') →
      (findFact m key.sym).isSome → ∀ msg, r ≠ .error (.notFound msg) := by
  intro fuel
  induction fuel with
  | zero =>
    intro key s r s' h _ msg hr
    subst hr
    simp only [getFuel] at h
    rw [Prod.mk.injEq] at h
    injection h.1 with he
    exact Err.noConfusion he
  | succ fuel ih =>
    intro key s r s' h hreg msg hr
    subst hr
    cases hf : findFact m key.sym with
    | none => rw [hf] at hreg; cases hreg
    | some f =>
      simp only [getFuel, hf] at h
      cases hd : resolveDepsA (getFuel m fuel) f.dependsOn s with
      | mk r1 s1 =>
        simp only [hd] at h
        cases r1 with
        | error e =>
          rw [Prod.mk.injEq] at h
          injection h.1 with he
          subst he
          exact resolveDepsA_not_notFound ih f.dependsOn s _ _ hd
            (fun k hk => hdeps f (findFact_mem hf).1 k hk) msg rfl
        | ok vals =>
          rcases invokeFactory_err_user h with ⟨msg2, he⟩
          exact Err.noConfusion he

/-! ## Constructor-invocation bookkeeping -/

/-- The plain-dependency edge the resolver recurses along: the owning
factory (first match, as `get` locates it) lists a plain dependency with
that symbol. Selector entries are not resolved recursively. -/
def plainEdge (m : List Factory) (a b : Nat) : Prop :=
  ∃ f k, findFact m a = some f ∧ DepKey.plain k ∈ f.dependsOn ∧ k.sym = b

/-- Reflexive-transitive closure of plain dependency edges. -/
inductive PStar (m : List Factory) : Nat → Nat → Prop where
  | refl (a : Nat) : PStar m a a
  | head {a b c : Nat} : plainEdge m a b → PStar m b c → PStar m a c

theorem invokeFactory_inits {f : Factory} {vals : List Value} {s : RState}
    {r : Except Err Value} {s' : RState} (h : invokeFactory f vals s = (r, s')) :
    s'.inits = s.inits ∨ s'.inits = s.inits ++ [f.provides.sym] := by
  unfold invokeFactory at h
  cases hk : f.kind with
  | transient =>
    rw [hk] at h
    exact Or.inr (runCtor_state h).1
  | singleton =>
    rw [hk] at h
    cases hl : lookupCache s.cache f.provides.sym with
    | some v =>
      simp only [hl] at h
      rw [Prod.mk.injEq] at h
      rw [← h.2]
      exact Or.inl rfl
    | none =>
      simp only [hl] at h
      cases hrc : runCtor f vals s with
      | mk rc sc =>
        simp only [hrc] at h
        cases rc with
        | ok v =>
          rw [Prod.mk.injEq] at h
          rw [← h.2]
          exact Or.inr (runCtor_state hrc).1
        | error e =>
          rw [Prod.mk.injEq] at h
          rw [← h.2]
          exact Or.inr (runCtor_state hrc).1

theorem resolveDepsA_inits_reach {m : List Factory} {fuel : Nat}
    (hg : ∀ (key : SKey) (s : RState) r s', getFuel m fuel key s = (r, s') →
      ∃ l, s'.inits = s.inits ++ l ∧ ∀ τ ∈ l, PStar m key.sym τ) :
    ∀ (ds : List DepKey) (s : RState) r s',
      resolveDepsA (getFuel m fuel) ds s = (r, s') →
      ∃ l, s'.inits = s.inits ++ l ∧
        ∀ τ ∈ l, ∃ k : SKey, DepKey.plain k ∈ ds ∧ PStar m k.sym τ := by
  intro ds
  induction ds with
  | nil =>
    intro s r s' h
    simp only [resolveDepsA] at h
    rw [Prod.mk.injEq] at h
    rw [← h.2]
    exact ⟨[], by simp, by intro τ ht; cases ht⟩
  | cons d ds ih =>
    intro s r s' h
    simp only [resolveDepsA] at h
    cases hd : resolveDepA (getFuel m fuel) d s with
    | mk r1 s1 =>
      simp only [hd] at h
      have hhead : ∃ l1, s1.inits = s.inits ++ l1 ∧
          ∀ τ ∈ l1, ∃ k : SKey, DepKey.plain k ∈ d :: ds ∧ PStar m k.sym τ := by
        cases d with
        | selector ms =>
          simp only [resolveDepA] at hd
          rw [Prod.mk.injEq] at hd
          rw [← hd.2]
          exact ⟨[], by simp, by intro τ ht; cases ht⟩
        | plain k =>
          rcases hg k s r1 s1 hd with ⟨l1, he, hp⟩
          exact ⟨l1, he, fun τ ht => ⟨k, List.mem_cons_self _ _, hp τ ht⟩⟩
      rcases hhead with ⟨l1, he1, hp1⟩
      cases r1 with
      | error e =>
        rw [Prod.mk.injEq] at h
        rw [← h.2]
        exact ⟨l1, he1, hp1⟩
      | ok v =>
        cases hd2 : resolveDepsA (getFuel m fuel) ds s1 with
        | mk r2 s2 =>
          simp only [hd2] at h
          rcases ih s1 r2 s2 hd2 with ⟨l2, he2, hp2⟩
          have hfin : s2.inits = s.inits ++ (l1 ++ l2) := by
            rw [he2, he1, List.append_assoc]
          have hpfin : ∀ τ ∈ l1 ++ l2,
              ∃ k : SKey, DepKey.plain k ∈ d :: ds ∧ PStar m k.sym τ := by
            intro τ ht
            rcases List.mem_append.1 ht with ht | ht
            · exact hp1 τ ht
            · rcases hp2 τ ht with ⟨k, hk, hps⟩
              exact ⟨k, List.mem_cons_of_mem _ hk, hps⟩
          cases r2 with
          | error e =>
            rw [Prod.mk.injEq] at h
            rw [← h.2]
            exact ⟨l1 ++ l2, hfin, hpfin⟩
          | ok vs =>
            rw [Prod.mk.injEq] at h
            rw [← h.2]
            exact ⟨l1 ++ l2, hfin, hpfin⟩

theorem getFuel_inits_reach {m : List Factory} :
    ∀ (fuel : Nat) (key : SKey) (s : RState) r s', getFuel m fuel key s = (r, s') →
      ∃ l, s'.inits = s.inits ++ l ∧ ∀ τ ∈ l, PStar m key.sym τ := by
  intro fuel
  induction fuel with
  | zero =>
    intro key s r s' h
    simp only [getFuel] at h
    rw [Prod.mk.injEq] at h
    rw [← h.2]
    exact ⟨[], by simp, by intro τ ht; cases ht⟩
  | succ fuel ih =>
    intro key s r s' h
    cases hf : findFact m key.sym with
    | none =>
      simp only [getFuel, hf] at h
      rw [Prod.mk.injEq] at h
      rw [← h.2]
      exact ⟨[], by simp, by intro τ ht; cases ht⟩
    | some f =>
      simp only [getFuel, hf] at h
      cases hd : resolveDepsA (getFuel m fuel) f.dependsOn s with
      | mk r1 s1 =>
        simp only [hd] at h
        have hlift : ∀ τ, (∃ k : SKey, DepKey.plain k ∈ f.dependsOn ∧ PStar m k.sym τ) →
            PStar m key.sym τ := by
          rintro τ ⟨k, hk, hps⟩
          exact PStar.head ⟨f, k, hf, hk, rfl⟩ hps
        rcases resolveDepsA_inits_reach ih f.dependsOn s r1 s1 hd with ⟨l1, he1, hp1⟩
        cases r1 with
        | error e =>
          rw [Prod.mk.injEq] at h
          rw [← h.2]
          exact ⟨l1, he1, fun τ ht => hlift τ (hp1 τ ht)⟩
        | ok vals =>
          rcases invokeFactory_inits h with hi | hi
          · exact ⟨l1, by rw [hi, he1], fun τ ht => hlift τ (hp1 τ ht)⟩
          · refine ⟨l1 ++ [f.provides.sym], by rw [hi, he1, List.append_assoc], ?_⟩
            intro τ ht
            rcases List.mem_append.1 ht with ht | ht
            · exact hlift τ (hp1 τ ht)
            · rw [List.mem_singleton.1 ht, (findFact_mem hf).2]
              exact PStar.refl _

theorem getFuel_transient_delta {m : List Factory} {key : SKey} {f : Factory}
    (hf : findFact m key.sym = some f) (hk : f.kind = .transient)
    (hnc : ¬ ∃ c, plainEdge m key.sym c ∧ PStar m c key.sym) :
    ∀ (fuel : Nat) (s : RState) (v : Value) (s' : RState),
      getFuel m fuel key s = (.ok v, s') →
      s'.inits.count key.sym = s.inits.count key.sym + 1 := by
  intro fuel s v s' h
  cases fuel with
  | zero =>
    simp only [getFuel] at h
    rw [Prod.mk.injEq] at h
    exact Except.noConfusion h.1
  | succ fu =>
    simp only [getFuel, hf] at h
    cases hd : resolveDepsA (getFuel m fu) f.dependsOn s with
    | mk r1 s1 =>
      simp only [hd] at h
      cases r1 with
      | error e =>
        rw [Prod.mk.injEq] at h
        exact Except.noConfusion h.1
      | ok vals =>
        rcases resolveDepsA_inits_reach (fun k s r s' hh => getFuel_inits_reach fu k s r s' hh)
          f.dependsOn s _ _ hd with ⟨l1, he1, hp1⟩
        have hnot : key.sym ∉ l1 := by
          intro hmem
          rcases hp1 _ hmem with ⟨k, hkdep, hps⟩
          exact hnc ⟨k.sym, ⟨f, k, hf, hkdep, rfl⟩, hps⟩
        unfold invokeFactory at h
        rw [hk] at h
        have hstate := runCtor_state h
        rw [hstate.1, he1]
        simp [List.count_append, List.count_eq_zero.2 hnot, (findFact_mem hf).2]

theorem plainEdge_to_edge {fs : List Factory} (hn : (symsOf fs).Nodup)
    {a b : Nat} (h : plainEdge fs a b) (hb : (lookupFact fs b).isSome) :
    edge fs a b := by
  rcases h with ⟨f, k, hf, hk, hkb⟩
  rw [findFact_eq_lookupFact hn] at hf
  exact ⟨f, hf, by rw [← hkb]; exact sym_mem_memberSyms hk, hb⟩

theorem PStar_to_GPath {fs : List Factory} (hn : (symsOf fs).Nodup)
    {c σ : Nat} (hp : PStar fs c σ) :
    (lookupFact fs σ).isSome → c = σ ∨ GPath fs c σ := by
  induction hp with
  | refl a => intro _; exact Or.inl rfl
  | head e _ ih =>
    intro hreg
    rcases ih hreg with hbc | hp'
    · subst hbc
      exact Or.inr (.single (plainEdge_to_edge hn e hreg))
    · exact Or.inr (.cons (plainEdge_to_edge hn e hp'.src_isSome) hp')

theorem no_plain_cycle_of_validated {entries : List Entry} {mod : ServiceModule}
    {key : SKey} (hok : fromEntries entries = .ok mod)
    (hreg : (findFact mod.factories key.sym).isSome) :
    ¬ ∃ c, plainEdge mod.factories key.sym c ∧ PStar mod.factories c key.sym := by
  obtain ⟨hfac, hcc, -⟩ := fromEntries_ok_inv hok
  have hn : (symsOf mod.factories).Nodup := by
    rw [hfac]
    exact nodup_symsOf_dedup _
  have hregl : (lookupFact mod.factories key.sym).isSome := by
    rw [← findFact_eq_lookupFact hn]
    exact hreg
  rintro ⟨c, he, hps⟩
  have hcyc : GPath mod.factories key.sym key.sym := by
    rcases PStar_to_GPath hn hps hregl with hceq | hp'
    · subst hceq
      exact .single (plainEdge_to_edge hn he hregl)
    · exact .cons (plainEdge_to_edge hn he hp'.src_isSome) hp'
  have hacc : Acc (childRel mod.factories) key.sym :=
    checkCircular_sound (by rw [hfac]; exact hcc) key.sym hregl
  exact no_cycle_of_acc hacc hcyc

theorem getMany_transient {m : List Factory} {key : SKey} {f : Factory}
    (hf : findFact m key.sym = some f) (hk : f.kind = .transient)
    (hnc : ¬ ∃ c, plainEdge m key.sym c ∧ PStar m c key.sym) :
    ∀ (N fuel : Nat) (s : RState) (vs : List Value) (s' : RState),
      getMany m fuel key N s = (.ok vs, s') →
      s'.inits.count key.sym = s.inits.count key.sym + N := by
  intro N
  induction N with
  | zero =>
    intro fuel s vs s' h
    simp only [getMany] at h
    rw [Prod.mk.injEq] at h
    rw [← h.2]
    omega
  | succ n ih =>
    intro fuel s vs s' h
    simp only [getMany] at h
    cases h1 : getFuel m fuel key s with
    | mk r1 s1 =>
      simp only [h1] at h
      cases r1 with
      | error e =>
        rw [Prod.mk.injEq] at h
        exact Except.noConfusion h.1
      | ok v =>
        cases h2 : getMany m fuel key n s1 with
        | mk r2 s2 =>
          simp only [h2] at h
          cases r2 with
          | error e =>
            rw [Prod.mk.injEq] at h
            exact Except.noConfusion h.1
          | ok vs2 =>
            rw [Prod.mk.injEq] at h
            rw [← h.2]
            rw [ih fuel s1 vs2 s2 h2, getFuel_transient_delta hf hk hnc fuel s v s1 h1]
            omega

/-! ## Singleton memoization bookkeeping -/

/-- How one successful resolver step treats the singleton cell of symbol
`σ`: a memoized instance is preserved untouched with no further
constructor invocation of `σ`, and from an empty cell either nothing
happens or the constructor runs exactly once and the outcome is stored. -/
def SigStep (σ : Nat) (s s' : RState) : Prop :=
  (∀ v, lookupCache s.cache σ = some v →
    lookupCache s'.cache σ = some v ∧ s'.inits.count σ = s.inits.count σ) ∧
  (lookupCache s.cache σ = none →
    (lookupCache s'.cache σ = none ∧ s'.inits.count σ = s.inits.count σ) ∨
    ∃ w, lookupCache s'.cache σ = some w ∧ s'.inits.count σ = s.inits.count σ + 1)

theorem SigStep.refl (σ : Nat) (s : RState) : SigStep σ s s :=
  ⟨fun _ hv => ⟨hv, Eq.refl _⟩, fun hn => Or.inl ⟨hn, Eq.refl _⟩⟩

theorem SigStep.trans {σ : Nat} {s1 s2 s3 : RState}
    (h1 : SigStep σ s1 s2) (h2 : SigStep σ s2 s3) : SigStep σ s1 s3 := by
  constructor
  · intro v hv
    obtain ⟨hc2, hn2⟩ := h1.1 v hv
    obtain ⟨hc3, hn3⟩ := h2.1 v hc2
    exact ⟨hc3, by rw [hn3, hn2]⟩
  · intro hn
    rcases h1.2 hn with ⟨hc2, hn2⟩ | ⟨w, hc2, hn2⟩
    · rcases h2.2 hc2 with ⟨hc3, hn3⟩ | ⟨w, hc3, hn3⟩
      · exact Or.inl ⟨hc3, by rw [hn3, hn2]⟩
      · exact Or.inr ⟨w, hc3, by rw [hn3, hn2]⟩
    · obtain ⟨hc3, hn3⟩ := h2.1 w hc2
      exact Or.inr ⟨w, hc3, by rw [hn3, hn2]⟩

theorem invokeFactory_sigstep {σ : Nat} {f : Factory} {vals : List Value}
    {s : RState} {v : Value} {s' : RState}
    (hsing : f.provides.sym = σ → f.kind = .singleton)
    (h : invokeFactory f vals s = (.ok v, s')) : SigStep σ s s' := by
  unfold invokeFactory at h
  cases hk : f.kind with
  | transient =>
    simp only [hk] at h
    have hfs : f.provides.sym ≠ σ := by
      intro he
      have h1 := hsing he
      rw [hk] at h1
      cases h1
    obtain ⟨hi, hc, -⟩ := runCtor_state h
    have hcnt : s'.inits.count σ = s.inits.count σ := by
      rw [hi, List.count_append]
      simp [hfs, Ne.symm hfs]
    constructor
    · intro v0 hv0
      rw [hc]
      exact ⟨hv0, hcnt⟩
    · intro hn
      left
      rw [hc]
      exact ⟨hn, hcnt⟩
  | singleton =>
    simp only [hk] at h
    cases hl : lookupCache s.cache f.provides.sym with
    | some w =>
      simp only [hl] at h
      rw [Prod.mk.injEq] at h
      rw [← h.2]
      exact SigStep.refl σ s
    | none =>
      simp only [hl] at h
      cases hrc : runCtor f vals s with
      | mk rc sc =>
        simp only [hrc] at h
        cases rc with
        | error e =>
          rw [Prod.mk.injEq] at h
          exact Except.noConfusion h.1
        | ok w =>
          rw [Prod.mk.injEq] at h
          obtain ⟨hi, hc, -⟩ := runCtor_state hrc
          have hs' : s' = { sc with cache := (f.provides.sym, w) :: sc.cache } := h.2.symm
          by_cases hfs : f.provides.sym = σ
          · constructor
            · intro v0 hv0
              rw [hfs] at hl
              rw [hl] at hv0
              cases hv0
            · intro hn
              right
              refine ⟨w, ?_, ?_⟩
              · rw [hs']
                show lookupCache ((f.provides.sym, w) :: sc.cache) σ = some w
                rw [lookupCache_cons, if_pos hfs]
              · rw [hs']
                show sc.inits.count σ = s.inits.count σ + 1
                rw [hi, List.count_append, hfs]
                simp
          · have hview : lookupCache s'.cache σ = lookupCache s.cache σ := by
              rw [hs']
              show lookupCache ((f.provides.sym, w) :: sc.cache) σ = _
              rw [lookupCache_cons, if_neg hfs, hc]
            have hcnt : s'.inits.count σ = s.inits.count σ := by
              rw [hs']
              show sc.inits.count σ = _
              rw [hi, List.count_append]
              simp [hfs, Ne.symm hfs]
            constructor
            · intro v0 hv0
              rw [hview]
              exact ⟨hv0, hcnt⟩
            · intro hn
              left
              rw [hview]
              exact ⟨hn, hcnt⟩

theorem resolveDepsA_sigstep {m : List Factory} {σ : Nat} {fuel : Nat}
    (hg : ∀ (key : SKey) (s : RState) (v : Value) (s' : RState),
      getFuel m fuel key s = (.ok v, s') → SigStep σ s s') :
    ∀ (ds : List DepKey) (s : RState) (vals : List Value) (s' : RState),
      resolveDepsA (getFuel m fuel) ds s = (.ok vals, s') → SigStep σ s s' := by
  intro ds
  induction ds with
  | nil =>
    intro s vals s' h
    simp only [resolveDepsA] at h
    rw [Prod.mk.injEq] at h
    rw [← h.2]
    exact SigStep.refl σ s
  | cons d ds ih =>
    intro s vals s' h
    simp only [resolveDepsA] at h
    cases hd : resolveDepA (getFuel m fuel) d s with
    | mk r1 s1 =>
      simp only [hd] at h
      cases r1 with
      | error e =>
        rw [Prod.mk.injEq] at h
        exact Except.noConfusion h.1
      | ok v =>
        have hstep1 : SigStep σ s s1 := by
          cases d with
          | selector ms =>
            simp only [resolveDepA] at hd
            rw [Prod.mk.injEq] at hd
            rw [← hd.2]
            exact SigStep.refl σ s
          | plain k => exact hg k s v s1 hd
        cases hd2 : resolveDepsA (getFuel m fuel) ds s1 with
        | mk r2 s2 =>
          simp only [hd2] at h
          cases r2 with
          | error e =>
            rw [Prod.mk.injEq] at h
            exact Except.noConfusion h.1
          | ok vs2 =>
            rw [Prod.mk.injEq] at h
            rw [← h.2]
            exact hstep1.trans (ih s1 vs2 s2 hd2)

theorem getFuel_sigstep {m : List Factory} {σ : Nat}
    (hsig : ∀ g, findFact m σ = some g → g.kind = .singleton) :
    ∀ (fuel : Nat) (key : SKey) (s : RState) (v : Value) (s' : RState),
      getFuel m fuel key s = (.ok v, s') → SigStep σ s s' := by
  intro fuel
  induction fuel with
  | zero =>
    intro key s v s' h
    simp only [getFuel] at h
    rw [Prod.mk.injEq] at h
    exact Except.noConfusion h.1
  | succ fuel ih =>
    intro key s v s' h
    cases hf : findFact m key.sym with
    | none =>
      simp only [getFuel, hf] at h
      rw [Prod.mk.injEq] at h
      exact Except.noConfusion h.1
    | some f =>
      simp only [getFuel, hf] at h
      cases hd : resolveDepsA (getFuel m fuel) f.dependsOn s with
      | mk r1 s1 =>
        simp only [hd] at h
        cases r1 with
        | error e =>
          rw [Prod.mk.injEq] at h
          exact Except.noConfusion h.1
        | ok vals =>
          have hstep1 : SigStep σ s s1 := resolveDepsA_sigstep ih f.dependsOn s vals s1 hd
          have hsing : f.provides.sym = σ → f.kind = .singleton := by
            intro he
            apply hsig f
            rw [← he, (findFact_mem hf).2]
            exact hf
          exact hstep1.trans (invokeFactory_sigstep hsing h)

theorem getFuel_singleton_caches {m : List Factory} {fuel : Nat} {key : SKey}
    {f : Factory} (hf : findFact m key.sym = some f) (hk : f.kind = .singleton)
    {s : RState} {v : Value} {s' : RState} (h : getFuel m fuel key s = (.ok v, s')) :
    lookupCache s'.cache key.sym = some v := by
  cases fuel with
  | zero =>
    simp only [getFuel] at h
    rw [Prod.mk.injEq] at h
    exact Except.noConfusion h.1
  | succ fu =>
    simp only [getFuel, hf] at h
    cases hd : resolveDepsA (getFuel m fu) f.dependsOn s with
    | mk r1 s1 =>
      simp only [hd] at h
      cases r1 with
      | error e =>
        rw [Prod.mk.injEq] at h
        exact Except.noConfusion h.1
      | ok vals =>
        unfold invokeFactory at h
        simp only [hk] at h
        cases hl : lookupCache s1.cache f.provides.sym with
        | some w =>
          simp only [hl] at h
          rw [Prod.mk.injEq] at h
          injection h.1 with hwv
          rw [← h.2, ← (findFact_mem hf).2, hl, hwv]
        | none =>
          simp only [hl] at h
          cases hrc : runCtor f vals s1 with
          | mk rc sc =>
            simp only [hrc] at h
            cases rc with
            | error e =>
              rw [Prod.mk.injEq] at h
              exact Except.noConfusion h.1
            | ok w =>
              rw [Prod.mk.injEq] at h
              injection h.1 with hwv
              rw [← h.2, ← (findFact_mem hf).2]
              show lookupCache ((f.provides.sym, w) :: sc.cache) f.provides.sym = some v
              rw [lookupCache_cons, if_pos rfl, hwv]

theorem getFuel_cached_value {m : List Factory} {σ : Nat}
    (hsig : ∀ g, findFact m σ = some g → g.kind = .singleton) :
    ∀ (fuel : Nat) (key : SKey) (s : RState) (v w : Value) (s' : RState),
      key.sym = σ → lookupCache s.cache σ = some v →
      getFuel m fuel key s = (.ok w, s') → w = v := by
  intro fuel key s v w s' hkey hc h
  cases fuel with
  | zero =>
    simp only [getFuel] at h
    rw [Prod.mk.injEq] at h
    exact Except.noConfusion h.1
  | succ fu =>
    cases hfind : findFact m key.sym with
    | none =>
      simp only [getFuel, hfind] at h
      rw [Prod.mk.injEq] at h
      exact Except.noConfusion h.1
    | some f =>
      have hkf : f.kind = .singleton := hsig f (by rw [← hkey]; exact hfind)
      simp only [getFuel, hfind] at h
      cases hd : resolveDepsA (getFuel m fu) f.dependsOn s with
      | mk r1 s1 =>
        simp only [hd] at h
        cases r1 with
        | error e =>
          rw [Prod.mk.injEq] at h
          exact Except.noConfusion h.1
        | ok vals =>
          have hstep : SigStep σ s s1 :=
            resolveDepsA_sigstep (fun k s v s' hh => getFuel_sigstep hsig fu k s v s' hh)
              f.dependsOn s vals s1 hd
          have hc1 : lookupCache s1.cache σ = some v := (hstep.1 v hc).1
          unfold invokeFactory at h
          simp only [hkf] at h
          have hfσ : f.provides.sym = σ := by rw [(findFact_mem hfind).2, hkey]
          rw [hfσ] at h
          simp only [hc1] at h
          rw [Prod.mk.injEq] at h
          injection h.1 with hvw
          exact hvw.symm

theorem getMany_cached {m : List Factory} {σ : Nat}
    (hsig : ∀ g, findFact m σ = some g → g.kind = .singleton) :
    ∀ (N fuel : Nat) (key : SKey) (s : RState) (v : Value) (vs : List Value)
      (s' : RState), key.sym = σ → lookupCache s.cache σ = some v →
      getMany m fuel key N s = (.ok vs, s') →
      vs = List.replicate N v ∧ s'.inits.count σ = s.inits.count σ ∧
        lookupCache s'.cache σ = some v := by
  intro N
  induction N with
  | zero =>
    intro fuel key s v vs s' hkey hc h
    simp only [getMany] at h
    rw [Prod.mk.injEq] at h
    injection h.1 with hvs
    rw [← h.2, ← hvs]
    exact ⟨rfl, rfl, hc⟩
  | succ n ih =>
    intro fuel key s v vs s' hkey hc h
    simp only [getMany] at h
    cases h1 : getFuel m fuel key s with
    | mk r1 s1 =>
      simp only [h1] at h
      cases r1 with
      | error e =>
        rw [Prod.mk.injEq] at h
        exact Except.noConfusion h.1
      | ok w =>
        have hwv : w = v := getFuel_cached_value hsig fuel key s v w s1 hkey hc h1
        have hstep : SigStep σ s s1 := getFuel_sigstep hsig fuel key s w s1 h1
        obtain ⟨hc1, hcnt1⟩ := hstep.1 v hc
        cases h2 : getMany m fuel key n s1 with
        | mk r2 s2 =>
          simp only [h2] at h
          cases r2 with
          | error e =>
            rw [Prod.mk.injEq] at h
            exact Except.noConfusion h.1
          | ok vs2 =>
            rw [Prod.mk.injEq] at h
            obtain ⟨hrep, hcnt2, hc2⟩ := ih fuel key s1 v vs2 s2 hkey hc1 h2
            injection h.1 with hvs
            rw [← h.2, ← hvs, hrep, hwv]
            exact ⟨rfl, by rw [hcnt2, hcnt1], hc2⟩

/-! ## The in-flight state machine facts -/

/-- The reachable states of the singleton cell: the constructor has run
exactly when the cell has left the untouched state, and then exactly
once. -/
def SimInv (st : SingletonSim) : Prop :=
  (st.cell = .uninit ∧ st.ctorRuns = 0) ∨ (st.cell ≠ .uninit ∧ st.ctorRuns = 1)

theorem simStep_inv {st : SingletonSim} (h : SimInv st) (e : SimEvent) :
    SimInv (simStep st e) := by
  cases e with
  | arrive =>
    rcases h with ⟨hc, hr⟩ | ⟨hc, hr⟩
    · simp only [simStep, hc]
      right
      exact ⟨(by intro hx; cases hx), (by rw [hr])⟩
    · cases hcell : st.cell with
      | uninit => exact absurd hcell hc
      | inFlight =>
        simp only [simStep, hcell]
        right
        exact ⟨(by intro hx; cases hx), hr⟩
      | ready =>
        simp only [simStep, hcell]
        right
        exact ⟨(by intro hx; cases hx), hr⟩
  | complete =>
    rcases h with ⟨hc, hr⟩ | ⟨hc, hr⟩
    · simp only [simStep, hc]
      exact Or.inl ⟨hc, hr⟩
    · cases hcell : st.cell with
      | uninit => exact absurd hcell hc
      | inFlight =>
        simp only [simStep, hcell]
        right
        exact ⟨(by intro hx; cases hx), hr⟩
      | ready =>
        simp only [simStep, hcell]
        exact Or.inr ⟨hc, hr⟩

theorem sim_foldl_inv : ∀ (evs : List SimEvent) (st : SingletonSim),
    SimInv st → SimInv (List.foldl simStep st evs) := by
  intro evs
  induction evs with
  | nil => intro st h; exact h
  | cons e evs ih =>
    intro st h
    rw [List.foldl_cons]
    exact ih _ (simStep_inv h e)

theorem simStep_keeps_started {st : SingletonSim} (h : st.cell ≠ .uninit)
    (e : SimEvent) : (simStep st e).cell ≠ .uninit := by
  cases e with
  | arrive =>
    cases hcell : st.cell with
    | uninit => exact absurd hcell h
    | inFlight => simp only [simStep, hcell]; intro hx; cases hx
    | ready => simp only [simStep, hcell]; intro hx; cases hx
  | complete =>
    cases hcell : st.cell with
    | uninit => exact absurd hcell h
    | inFlight => simp only [simStep, hcell]; intro hx; cases hx
    | ready => simp only [simStep, hcell]; intro hx; cases hx

theorem sim_foldl_started : ∀ (evs : List SimEvent) (st : SingletonSim),
    (st.cell ≠ .uninit ∨ 1 ≤ arrivals evs) →
    (List.foldl simStep st evs).cell ≠ .uninit := by
  intro evs
  induction evs with
  | nil =>
    intro st h
    rcases h with h | h
    · exact h
    · exact absurd h (by simp [arrivals])
  | cons e evs ih =>
    intro st h
    rw [List.foldl_cons]
    apply ih
    rcases h with h | h
    · exact Or.inl (simStep_keeps_started h e)
    · cases e with
      | arrive =>
        left
        cases hcell : st.cell with
        | uninit => simp only [simStep, hcell]; intro hx; cases hx
        | inFlight => simp only [simStep, hcell]; intro hx; cases hx
        | ready => simp only [simStep, hcell]; intro hx; cases hx
      | complete =>
        right
        simpa [arrivals] using h

theorem sim_foldl_waiters : ∀ (evs : List SimEvent) (st : SingletonSim),
    (List.foldl simStep st evs).waiters = st.waiters + arrivals evs := by
  intro evs
  induction evs with
  | nil => intro st; simp [arrivals]
  | cons e evs ih =>
    intro st
    rw [List.foldl_cons, ih]
    cases e with
    | arrive =>
      have hstep : (simStep st .arrive).waiters = st.waiters + 1 := by
        unfold simStep
        cases st.cell <;> rfl
      rw [hstep]
      simp only [arrivals, List.countP_cons]
      simp
      omega
    | complete =>
      have hstep : (simStep st .complete).waiters = st.waiters := by
        unfold simStep
        cases st.cell <;> rfl
      rw [hstep]
      simp only [arrivals, List.countP_cons]
      simp

/-! ## Result-shape facts for the resolver -/

theorem resolveDepsA_ok_length {g : SKey → RState → Except Err Value × RState} :
    ∀ (ds : List DepKey) (s : RState) (vals : List Value) (s' : RState),
      resolveDepsA g ds s = (.ok vals, s') → vals.length = ds.length := by
  intro ds
  induction ds with
  | nil =>
    intro s vals s' h
    simp only [resolveDepsA] at h
    rw [Prod.mk.injEq] at h
    injection h.1 with hv
    rw [← hv]
    rfl
  | cons d ds ih =>
    intro s vals s' h
    simp only [resolveDepsA] at h
    cases hd : resolveDepA g d s with
    | mk r1 s1 =>
      simp only [hd] at h
      cases r1 with
      | error e =>
        rw [Prod.mk.injEq] at h
        exact Except.noConfusion h.1
      | ok v =>
        cases hd2 : resolveDepsA g ds s1 with
        | mk r2 s2 =>
          simp only [hd2] at h
          cases r2 with
          | error e =>
            rw [Prod.mk.injEq] at h
            exact Except.noConfusion h.1
          | ok vs2 =>
            rw [Prod.mk.injEq] at h
            injection h.1 with hv
            rw [← hv, List.length_cons, ih s1 vs2 s2 hd2]
            rfl

theorem getFuel_ok_inv {m : List Factory} {fuel : Nat} {key : SKey} {s : RState}
    {v : Value} {s' : RState} (h : getFuel m (fuel + 1) key s = (.ok v, s')) :
    ∃ f vals s1, findFact m key.sym = some f ∧
      resolveDepsA (getFuel m fuel) f.dependsOn s = (.ok vals, s1) ∧
      vals.length = f.dependsOn.length ∧
      invokeFactory f vals s1 = (.ok v, s') := by
  cases hf : findFact m key.sym with
  | none =>
    simp only [getFuel, hf] at h
    rw [Prod.mk.injEq] at h
    exact Except.noConfusion h.1
  | some f =>
    simp only [getFuel, hf] at h
    cases hd : resolveDepsA (getFuel m fuel) f.dependsOn s with
    | mk r1 s1 =>
      simp only [hd] at h
      cases r1 with
      | error e =>
        rw [Prod.mk.injEq] at h
        exact Except.noConfusion h.1
      | ok vals =>
        exact ⟨f, vals, s1, rfl, hd, resolveDepsA_ok_length _ _ _ _ hd, h⟩

theorem resolveDepsA_err_split {g : SKey → RState → Except Err Value × RState} :
    ∀ (ds : List DepKey) (s : RState) (e : Err) (s' : RState),
      resolveDepsA g ds s = (.error e, s') →
      ∃ ds₁ d ds₂ vals smid, ds = ds₁ ++ d :: ds₂ ∧
        resolveDepsA g ds₁ s = (.ok vals, smid) ∧
        resolveDepA g d smid = (.error e, s') := by
  intro ds
  induction ds with
  | nil =>
    intro s e s' h
    simp only [resolveDepsA] at h
    rw [Prod.mk.injEq] at h
    exact Except.noConfusion h.1
  | cons d ds ih =>
    intro s e s' h
    simp only [resolveDepsA] at h
    cases hd : resolveDepA g d s with
    | mk r1 s1 =>
      simp only [hd] at h
      cases r1 with
      | error e1 =>
        rw [Prod.mk.injEq] at h
        injection h.1 with he
        subst he
        refine ⟨[], d, ds, [], s, rfl, rfl, ?_⟩
        rw [hd, h.2]
      | ok v =>
        cases hd2 : resolveDepsA g ds s1 with
        | mk r2 s2 =>
          simp only [hd2] at h
          cases r2 with
          | error e2 =>
            rw [Prod.mk.injEq] at h
            injection h.1 with he
            subst he
            rcases ih s1 e2 s2 hd2 with ⟨ds₁, d1, ds₂, vals, smid, hsplit, hpre, herr⟩
            refine ⟨d :: ds₁, d1, ds₂, v :: vals, smid, by rw [hsplit]; rfl, ?_, ?_⟩
            · simp only [resolveDepsA, hd, hpre]
            · rw [herr, h.2]
          | ok vs2 =>
            rw [Prod.mk.injEq] at h
            exact Except.noConfusion h.1

theorem eq_of_sym_eq_of_nodup {fs : List Factory} (hn : (symsOf fs).Nodup)
    {f g : Factory} (hf : f ∈ fs) (hg : g ∈ fs)
    (he : f.provides.sym = g.provides.sym) : f = g := by
  have h1 := findFact_self_of_nodup hn hf
  have h2 := findFact_self_of_nodup hn hg
  rw [he] at h1
  rw [h1] at h2
  exact Option.some.inj h2

/-! ## Further concrete scenario services -/

/-- Key1 to the string value1, transient, no dependencies. -/
def facPlain1 : Factory :=
  { provides := key1, dependsOn := [], kind := .transient,
    ctor := fun _ _ => .ok (.str "value1") }

/-- Key2 to the string value2, transient, no dependencies. -/
def facPlain2 : Factory :=
  { provides := key2, dependsOn := [], kind := .transient,
    ctor := fun _ _ => .ok (.str "value2") }

/-- Key1 to v1 for the dependency-resolution scenario. -/
def facV1 : Factory :=
  { provides := key1, dependsOn := [], kind := .transient,
    ctor := fun _ _ => .ok (.str "v1") }

/-- Key2 from Key1, prefixing v2- to the resolved value. -/
def facV2 : Factory :=
  { provides := key2, dependsOn := [.plain key1], kind := .transient,
    ctor := fun vs _ =>
      (match vs with | [.str a] => .ok (.str ("v2-" ++ a)) | _ => .error "unexpected") }

/-- Key1 whose constructor throws. -/
def facFail : Factory :=
  { provides := key1, dependsOn := [], kind := .transient,
    ctor := fun _ _ => .error "Init error" }

/-- Key2 depending on the throwing Key1. -/
def facNeedsFail : Factory :=
  { provides := key2, dependsOn := [.plain key1], kind := .transient,
    ctor := fun _ _ => .ok (.str "never") }

/-- Key1 allocating a fresh object per construction, transient. -/
def facCounter : Factory :=
  { provides := key1, dependsOn := [], kind := .transient,
    ctor := fun _ n => .ok (.obj n) }

/-- Key1 allocating a fresh object per construction, singleton. -/
def facSingle : Factory :=
  { provides := key1, dependsOn := [], kind := .singleton,
    ctor := fun _ n => .ok (.obj n) }

/-- Key2 from Key1, for the shared-dependency tree. -/
def facMid : Factory :=
  { provides := key2, dependsOn := [.plain key1], kind := .transient,
    ctor := fun _ _ => .ok (.str "mid") }

/-- Key3 from Key1 and Key2, for the shared-dependency tree. -/
def facTop : Factory :=
  { provides := key3, dependsOn := [.plain key1, .plain key2], kind := .transient,
    ctor := fun _ _ => .ok (.str "top") }

/-- Key1 in scope 10 with a disposer hook. -/
def facScope1 : Factory :=
  { provides := key1, dependsOn := [], kind := .singleton, scope := some 10,
    ctor := fun _ _ => .ok (.str "value1"), disposeHook := some 101 }

/-- Key2 in scope 20 without a disposer hook. -/
def facScope2 : Factory :=
  { provides := key2, dependsOn := [], kind := .singleton, scope := some 20,
    ctor := fun _ _ => .ok (.str "value2") }

/-- Key3 without a scope, with a disposer hook. -/
def facScope3 : Factory :=
  { provides := key3, dependsOn := [], kind := .transient,
    ctor := fun _ _ => .ok (.str "value3"), disposeHook := some 103 }

/-! ## Claims about resolution -/

/-- Claim C5: in every validated module, `get` rejects with the
factory-not-found error exactly when no factory provides the requested
key (compared by key identity), and `getOrNull` behaves identically to
`get` except that this error and only this error is converted to a
resolved null; every other failure, including one raised inside a factory
constructor, propagates unchanged with its identity. Concretely, the
empty module resolves `getOrNull` of Key1 to null, and a module whose
constructor throws propagates the constructor error unchanged through
`getOrNull`. -/
theorem c5_not_found_and_get_or_null :
    (∀ (entries : List Entry) (mod : ServiceModule),
      fromEntries entries = .ok mod →
      ∀ (key : SKey) (s : RState),
        ((∃ msg, (moduleGet mod key s).1 = .error (.notFound msg)) ↔
          ∀ f ∈ mod.factories, f.provides.sym ≠ key.sym) ∧
        (∀ v s', moduleGet mod key s = (.ok v, s') →
          moduleGetOrNull mod key s = (.ok (some v), s')) ∧
        (∀ msg s', moduleGet mod key s = (.error (.notFound msg), s') →
          moduleGetOrNull mod key s = (.ok none, s')) ∧
        (∀ e s', moduleGet mod key s = (.error e, s') →
          (∀ msg, e ≠ .notFound msg) → moduleGetOrNull mod key s = (.error e, s'))) ∧
    ((moduleGetOrNull ⟨[]⟩ key1 {}).1 = .ok none) ∧
    ((moduleGetOrNull ⟨[facFail]⟩ key1 {}).1 = .error (.userError "Init error")) := by
  refine ⟨?_, rfl, rfl⟩
  intro entries mod hok key s
  refine ⟨⟨?_, ?_⟩, ?_, ?_, ?_⟩
  · rintro ⟨msg, hmsg⟩ f hf heq
    have hreg : (findFact mod.factories key.sym).isSome :=
      findFact_isSome_iff.2 ⟨f, hf, heq⟩
    have hpair : getFuel mod.factories (mod.factories.length + 1) key s
        = ((moduleGet mod key s).1, (moduleGet mod key s).2) := Prod.mk.eta.symm
    exact getFuel_not_notFound (validated_plain_deps hok) _ key s _ _ hpair hreg msg hmsg
  · intro hnone
    have hfind : findFact mod.factories key.sym = none :=
      findFact_eq_none_iff.2 hnone
    refine ⟨"Could not find a suitable factory for " ++ key.name, ?_⟩
    show (getFuel mod.factories (mod.factories.length + 1) key s).1 = _
    simp only [getFuel, hfind]
  · intro v s' h
    simp only [moduleGet] at h
    show getOrNullFuel mod.factories (mod.factories.length + 1) key s = _
    unfold getOrNullFuel
    simp only [h]
  · intro msg s' h
    simp only [moduleGet] at h
    show getOrNullFuel mod.factories (mod.factories.length + 1) key s = _
    unfold getOrNullFuel
    simp only [h]
  · intro e s' h hne
    simp only [moduleGet] at h
    show getOrNullFuel mod.factories (mod.factories.length + 1) key s = _
    unfold getOrNullFuel
    cases e with
    | notFound msg => exact absurd rfl (hne msg)
    | moduleInit msg => simp only [h]
    | userError msg => simp only [h]
    | outOfFuel => simp only [h]

/-- Claim C5 witness: the empty module is validated and `getOrNull` of
Key1 downgrades the not-found failure to a resolved null. -/
theorem c5_witness : moduleGetOrNull ⟨[]⟩ key1 {} = (.ok none, {}) :=
  (c5_not_found_and_get_or_null.1 [] ⟨[]⟩ rfl key1 {}).2.2.1
    ("Could not find a suitable factory for " ++ key1.name) {} rfl

/-- Claim C6: when `get` succeeds, the located factory is invoked with
the list of dependency values resolved in `dependsOn` order, one value
per declared dependency, positionally; concretely, with Key1 producing
v1 and Key2 depending on Key1 with a constructor prefixing v2-, `get` of
Key2 yields v2-v1. -/
theorem c6_positional :
    (∀ (m : List Factory) (fuel : Nat) (key : SKey) (s : RState) (v : Value)
        (s' : RState), getFuel m (fuel + 1) key s = (.ok v, s') →
      ∃ f vals s1, findFact m key.sym = some f ∧
        resolveDepsA (getFuel m fuel) f.dependsOn s = (.ok vals, s1) ∧
        vals.length = f.dependsOn.length ∧
        invokeFactory f vals s1 = (.ok v, s')) ∧
    ((moduleGet ⟨[facV1, facV2]⟩ key2 {}).1 = .ok (.str "v2-v1")) :=
  ⟨fun _ _ _ _ _ _ h => getFuel_ok_inv h, rfl⟩

/-- Claim C6 witness: the inversion applied to the concrete v2-v1
resolution. -/
theorem c6_positional_witness :
    ∃ f vals s1, findFact [facV1, facV2] key2.sym = some f ∧
      resolveDepsA (getFuel [facV1, facV2] 2) f.dependsOn {} = (.ok vals, s1) ∧
      vals.length = f.dependsOn.length ∧
      invokeFactory f vals s1 = (.ok (.str "v2-v1"), ⟨2, [1, 2], []⟩) :=
  c6_positional.1 [facV1, facV2] 2 key2 {} (.str "v2-v1") ⟨2, [1, 2], []⟩ rfl

/-- Claim C7: in every validated module, N successful `get` calls for a
transient-owned key run its raw constructor exactly N times; concretely
two calls on an object-allocating transient yield two distinct objects,
and one resolution of Key3 over the tree Key3 -> [Key1, Key2],
Key2 -> [Key1] constructs the shared transient Key1 once per branch,
twice in total. -/
theorem c7_transient_fresh :
    (∀ (entries : List Entry) (mod : ServiceModule) (key : SKey) (f : Factory)
        (fuel N : Nat) (s : RState) (vs : List Value) (s' : RState),
      fromEntries entries = .ok mod →
      findFact mod.factories key.sym = some f → f.kind = .transient →
      getMany mod.factories fuel key N s = (.ok vs, s') →
      s'.inits.count key.sym = s.inits.count key.sym + N) ∧
    ((getMany [facCounter] 2 key1 2 {}).1 = .ok [.obj 0, .obj 1] ∧
      (Value.obj 0) ≠ (Value.obj 1)) ∧
    (((moduleGet ⟨[facCounter, facMid, facTop]⟩ key3 {}).2).inits.count key1.sym = 2) := by
  refine ⟨?_, ⟨rfl, by decide⟩, rfl⟩
  intro entries mod key f fuel N s vs s' hok hf hk h
  have hreg : (findFact mod.factories key.sym).isSome := by rw [hf]; rfl
  exact getMany_transient hf hk (no_plain_cycle_of_validated hok hreg) N fuel s vs s' h

/-- Claim C7 witness: two sequential gets of the transient counter run
its constructor exactly twice. -/
theorem c7_transient_fresh_witness :
    (⟨2, [1, 1], []⟩ : RState).inits.count key1.sym
      = ({} : RState).inits.count key1.sym + 2 :=
  c7_transient_fresh.1 [.fac facCounter] ⟨[facCounter]⟩ key1 facCounter 2 2 {}
    [.obj 0, .obj 1] ⟨2, [1, 1], []⟩ rfl rfl rfl rfl

/-- Claim C8: a selector dependency entry resolves to a selector handle
bound to that selector key with no state change and no eager resolution
of its members, and the selector `get` resolves exactly as the module
`get` would; concretely, fetching the members of a selector over
[Key1, Key2] through the handle yields the same values as direct gets. -/
theorem c8_selector :
    (∀ (fuel : Nat) (m : List Factory) (ms : List SKey) (s : RState),
      resolveDepA (getFuel m fuel) (.selector ms) s = (.ok (.selectorHandle ms), s)) ∧
    (∀ (mod : ServiceModule) (handle : Value) (k : SKey) (s : RState),
      selectorGet mod handle k s = moduleGet mod k s) ∧
    ((selectorGet ⟨[facPlain1, facPlain2]⟩ (.selectorHandle [key1, key2]) key1 {}).1
        = .ok (.str "value1") ∧
      (moduleGet ⟨[facPlain1, facPlain2]⟩ key1 {}).1 = .ok (.str "value1") ∧
      (selectorGet ⟨[facPlain1, facPlain2]⟩ (.selectorHandle [key1, key2]) key2 {}).1
        = .ok (.str "value2") ∧
      (moduleGet ⟨[facPlain1, facPlain2]⟩ key2 {}).1 = .ok (.str "value2")) :=
  ⟨fun _ _ _ _ => rfl, fun _ _ _ _ => rfl, rfl, rfl, rfl, rfl⟩

/-- Claim C9: `dispose` with a scope invokes the disposer hook of
exactly the factories whose declared scope matches by identity,
`dispose` with no scope invokes every present hook, and factories
lacking a hook are skipped (the embedding is total, so no error can be
raised); concretely over three factories the hookless one never appears
and scope filtering selects by identity. -/
theorem c9_dispose :
    (∀ (m : ServiceModule), (symsOf m.factories).Nodup →
      ∀ f ∈ m.factories,
        (∀ sc : Nat, f.provides.sym ∈ dispose m (some sc) ↔
          (f.scope = some sc ∧ f.disposeHook.isSome)) ∧
        (f.provides.sym ∈ dispose m none ↔ f.disposeHook.isSome)) ∧
    (dispose ⟨[facScope1, facScope2, facScope3]⟩ none = [1, 3] ∧
      dispose ⟨[facScope1, facScope2, facScope3]⟩ (some 10) = [1] ∧
      dispose ⟨[facScope1, facScope2, facScope3]⟩ (some 20) = []) := by
  refine ⟨?_, rfl, rfl, rfl⟩
  intro m hn f hf
  constructor
  · intro sc
    show f.provides.sym ∈
        ((m.factories.filter (fun g => g.scope == some sc)).filter
          (fun g => g.disposeHook.isSome)).map (fun g => g.provides.sym) ↔ _
    constructor
    · intro hmem
      rw [List.mem_map] at hmem
      rcases hmem with ⟨g, hg, hsym⟩
      rw [List.mem_filter] at hg
      rcases hg with ⟨hg1, hg2⟩
      rw [List.mem_filter] at hg1
      rcases hg1 with ⟨hg0, hg3⟩
      have hgf : g = f := eq_of_sym_eq_of_nodup hn hg0 hf hsym
      subst hgf
      exact ⟨by simpa using hg3, hg2⟩
    · rintro ⟨hsc, hhook⟩
      rw [List.mem_map]
      refine ⟨f, ?_, rfl⟩
      rw [List.mem_filter]
      refine ⟨?_, hhook⟩
      rw [List.mem_filter]
      exact ⟨hf, by simpa using hsc⟩
  · show f.provides.sym ∈
        (m.factories.filter (fun g => g.disposeHook.isSome)).map
          (fun g => g.provides.sym) ↔ _
    constructor
    · intro hmem
      rw [List.mem_map] at hmem
      rcases hmem with ⟨g, hg, hsym⟩
      rw [List.mem_filter] at hg
      rcases hg with ⟨hg0, hg2⟩
      have hgf : g = f := eq_of_sym_eq_of_nodup hn hg0 hf hsym
      subst hgf
      exact hg2
    · intro hhook
      rw [List.mem_map]
      refine ⟨f, ?_, rfl⟩
      rw [List.mem_filter]
      exact ⟨hf, hhook⟩

/-- Claim C9 witness: the characterization applied to the scoped factory
with a hook, at its own scope and with no scope. -/
theorem c9_dispose_witness :
    (facScope1.provides.sym ∈ dispose ⟨[facScope1, facScope2, facScope3]⟩ (some 10) ↔
      (facScope1.scope = some 10 ∧ facScope1.disposeHook.isSome)) ∧
    (facScope1.provides.sym ∈ dispose ⟨[facScope1, facScope2, facScope3]⟩ none ↔
      facScope1.disposeHook.isSome) :=
  ⟨(c9_dispose.1 ⟨[facScope1, facScope2, facScope3]⟩ (by decide) facScope1
      (List.mem_cons_self _ _)).1 10,
    (c9_dispose.1 ⟨[facScope1, facScope2, facScope3]⟩ (by decide) facScope1
      (List.mem_cons_self _ _)).2⟩

/-- Claim C10: when the owning factory is found and the resolution of
its dependency list fails, `get` rejects with exactly the failing
resolution outcome — the state stops at the dependency failure, so the
factory constructor is never invoked — and the failure is that of the
first failing dependency entry after the successful prefix; concretely a
factory whose dependency constructor throws rejects with that error and
its own constructor never runs. -/
theorem c10_dep_failure :
    (∀ (m : List Factory) (fuel : Nat) (key : SKey) (s : RState) (f : Factory)
        (e : Err) (s1 : RState),
      findFact m key.sym = some f →
      resolveDepsA (getFuel m fuel) f.dependsOn s = (.error e, s1) →
      getFuel m (fuel + 1) key s = (.error e, s1) ∧
      ∃ ds₁ d ds₂ vals smid, f.dependsOn = ds₁ ++ d :: ds₂ ∧
        resolveDepsA (getFuel m fuel) ds₁ s = (.ok vals, smid) ∧
        resolveDepA (getFuel m fuel) d smid = (.error e, s1)) ∧
    ((moduleGet ⟨[facFail, facNeedsFail]⟩ key2 {})
        = (.error (.userError "Init error"), ⟨1, [1], []⟩) ∧
      (⟨1, [1], []⟩ : RState).inits.count key2.sym = 0) := by
  refine ⟨?_, rfl, rfl⟩
  intro m fuel key s f e s1 hf hd
  refine ⟨?_, resolveDepsA_err_split _ _ _ _ hd⟩
  simp only [getFuel, hf, hd]

/-- Claim C10 witness: the propagation applied to the module whose Key1
constructor throws under Key2. -/
theorem c10_dep_failure_witness :
    getFuel [facFail, facNeedsFail] (2 + 1) key2 {}
        = (.error (.userError "Init error"), ⟨1, [1], []⟩) ∧
      ∃ ds₁ d ds₂ vals smid, facNeedsFail.dependsOn = ds₁ ++ d :: ds₂ ∧
        resolveDepsA (getFuel [facFail, facNeedsFail] 2) ds₁ {} = (.ok vals, smid) ∧
        resolveDepA (getFuel [facFail, facNeedsFail] 2) d smid
          = (.error (.userError "Init error"), ⟨1, [1], []⟩) :=
  c10_dep_failure.1 [facFail, facNeedsFail] 2 key2 {} facNeedsFail
    (.userError "Init error") ⟨1, [1], []⟩ rfl rfl

/-- Claim C1: a singleton-scoped factory constructs at most once per
module. In the in-flight state machine (modelled from the spec), any
trace with at least one arrival runs the constructor exactly once and
attaches every arrival to the single shared outcome; in the sequential
interpreter, N+1 successful `get` calls for a singleton-owned key from a
cold cache return N+1 references to one and the same instance and run
the raw constructor exactly once. -/
theorem c1_singleton_once :
    (∀ evs : List SimEvent, 1 ≤ arrivals evs →
      (simRun evs).ctorRuns = 1 ∧ (simRun evs).waiters = arrivals evs) ∧
    (∀ (m : List Factory) (fuel : Nat) (key : SKey) (f : Factory) (N : Nat)
        (s : RState) (vs : List Value) (s' : RState),
      findFact m key.sym = some f → f.kind = .singleton →
      lookupCache s.cache key.sym = none →
      getMany m fuel key (N + 1) s = (.ok vs, s') →
      ∃ v, vs = List.replicate (N + 1) v ∧
        s'.inits.count key.sym = s.inits.count key.sym + 1) := by
  constructor
  · intro evs h
    have hinv := sim_foldl_inv evs ⟨.uninit, 0, 0⟩ (Or.inl ⟨rfl, rfl⟩)
    have hst := sim_foldl_started evs ⟨.uninit, 0, 0⟩ (Or.inr h)
    constructor
    · rcases hinv with ⟨hc, -⟩ | ⟨-, hr⟩
      · exact absurd hc hst
      · exact hr
    · have hw := sim_foldl_waiters evs ⟨.uninit, 0, 0⟩
      simpa [simRun] using hw
  · intro m fuel key f N s vs s' hf hk hc h
    have hsig : ∀ g, findFact m key.sym = some g → g.kind = .singleton := by
      intro g hg
      rw [hf] at hg
      injection hg with hg
      subst hg
      exact hk
    simp only [getMany] at h
    cases h1 : getFuel m fuel key s with
    | mk r1 s1 =>
      simp only [h1] at h
      cases r1 with
      | error e =>
        rw [Prod.mk.injEq] at h
        exact Except.noConfusion h.1
      | ok v =>
        have hcache1 : lookupCache s1.cache key.sym = some v :=
          getFuel_singleton_caches hf hk h1
        have hstep : SigStep key.sym s s1 := getFuel_sigstep hsig fuel key s v s1 h1
        have hcnt1 : s1.inits.count key.sym = s.inits.count key.sym + 1 := by
          rcases hstep.2 hc with ⟨hn, -⟩ | ⟨w, -, hcnt⟩
          · rw [hn] at hcache1
            cases hcache1
          · exact hcnt
        cases h2 : getMany m fuel key N s1 with
        | mk r2 s2 =>
          simp only [h2] at h
          cases r2 with
          | error e =>
            rw [Prod.mk.injEq] at h
            exact Except.noConfusion h.1
          | ok vs2 =>
            rw [Prod.mk.injEq] at h
            obtain ⟨hrep, hcnt2, -⟩ :=
              getMany_cached hsig N fuel key s1 v vs2 s2 rfl hcache1 h2
            refine ⟨v, ?_, ?_⟩
            · injection h.1 with hvs
              rw [← hvs, hrep, List.replicate_succ]
            · rw [← h.2, hcnt2, hcnt1]

/-- Claim C1 witness: a concurrent-shaped event trace with three
arrivals, and three sequential gets of the object-allocating singleton,
each yielding the same single instance after one construction. -/
theorem c1_singleton_once_witness :
    ((simRun [.arrive, .arrive, .complete, .arrive]).ctorRuns = 1 ∧
      (simRun [.arrive, .arrive, .complete, .arrive]).waiters
        = arrivals [.arrive, .arrive, .complete, .arrive]) ∧
    ∃ v, [Value.obj 0, .obj 0, .obj 0] = List.replicate (2 + 1) v ∧
      ((⟨1, [1], [(1, Value.obj 0)]⟩ : RState)).inits.count key1.sym
        = (({} : RState)).inits.count key1.sym + 1 :=
  ⟨c1_singleton_once.1 [.arrive, .arrive, .complete, .arrive] (by decide),
    c1_singleton_once.2 [facSingle] 2 key1 facSingle 2 {} [.obj 0, .obj 0, .obj 0]
      ⟨1, [1], [(1, Value.obj 0)]⟩ rfl rfl rfl rfl⟩

end LazyDI
